import Mathlib

/-!
Shallow embedding of the Distributed-Key-Value-Storage repository
(Go sources under `src/`), together with proofs about the embedded
operations.

Embedding conventions:
* A Go `map[K]V` is modelled as an association list `List (K × V)`;
  `lookupA` models a map read (first binding wins), `insertA` models a
  map write (replace in place or append), `eraseA` models `delete`.
* A possibly-nil Go map is `Option (List (K × V))`: reads on a nil map
  miss, writes on a nil map trap (modelled by `KVResult.crash`).
* Filesystem and network effects are passed in explicitly
  (`FileSystem`, `Net`); the file contents model what `encoding/json`
  decoding yields (`FileContent`).
* A Go `int` is modelled as `Int`; `maxGoInt` is the sentinel
  `int(^uint(0) >> 1)` used by `GetLeastLoadedStore`.
* The circular doubly linked list of `src/broker/broker_server.go` is
  modelled heap-style: ring nodes live in an association list indexed by
  allocation ids, and `next`/`prev` are ids, so the pointer surgery of
  `AddNode`/`RemoveNode` is reproduced verbatim.
-/

namespace DKVS

/-! ## Association lists modelling Go maps -/

def lookupA {κ α : Type} [DecidableEq κ] : List (κ × α) → κ → Option α
  | [], _ => none
  | (k', v) :: t, k => if k' = k then some v else lookupA t k


def insertA {κ α : Type} [DecidableEq κ] : List (κ × α) → κ → α → List (κ × α)
  | [], k, v => [(k, v)]
  | (k', v') :: t, k, v =>
      if k' = k then (k', v) :: t else (k', v') :: insertA t k v


def eraseA {κ α : Type} [DecidableEq κ] (l : List (κ × α)) (k : κ) : List (κ × α) :=
  l.filter (fun p => !(p.1 == k))


def keysA {κ α : Type} (l : List (κ × α)) : List κ := l.map Prod.fst


/-! ## KV-store node (`src/kvstore/kvstore.go`) -/

/-- Result of a node operation: Go's `error`-returning methods either
succeed, return an error, or trap at runtime (`crash` models a write to
a nil map, which panics in Go). -/
inductive KVResult (α : Type) where
  | ok (a : α)
  | err (msg : String)
  | crash
deriving DecidableEq, Repr


/-- The `KVStore` struct of `src/kvstore/kvstore.go`.  `data` is the
possibly-nil in-memory map (`none` models a nil Go map). -/
structure KVStore where
  data : Option (List (String × String))
  name : String
  ipAddress : String
  peerIP : String
deriving DecidableEq, Repr


/-- A read of the possibly-nil `data` map: reading a nil Go map misses. -/
def readData (d : Option (List (String × String))) (k : String) : Option String :=
  match d with
  | none => none
  | some l => lookupA l k


/-- `NewKVStore` of `src/kvstore/kvstore.go:56`: allocates the data map. -/
def NewKVStore (name port : String) : KVStore :=
  { data := some [], name := name, ipAddress := "localhost:" ++ port, peerIP := "" }


/-- `KVStore.Set` of `src/kvstore/kvstore.go:80`:
rejects the empty key, otherwise writes `data[key] = value`
(which traps when `data` is nil). -/
def KVStore.Set (s : KVStore) (key value : String) : KVResult KVStore :=
  if key = "" then .err "key cannot be empty"
  else
    match s.data with
    | none => .crash
    | some d => .ok { s with data := some (insertA d key value) }


/-- `KVStore.Get` of `src/kvstore/kvstore.go:92`. -/
def KVStore.Get (s : KVStore) (key : String) : Except String String :=
  match readData s.data key with
  | none => .error "key not found"
  | some v => .ok v


/-- `KVStore.Delete` of `src/kvstore/kvstore.go:104`: checks membership
first, then deletes (a `delete` on a Go map never traps). -/
def KVStore.Delete (s : KVStore) (key : String) : Except String KVStore :=
  match readData s.data key with
  | none => .error "key not found"
  | some _ => .ok { s with data := s.data.map (fun d => eraseA d key) }


/-- `KVStore.GetAllData` of `src/kvstore/kvstore.go:124`: a copy of the
data map (ranging over a nil map yields nothing). -/
def KVStore.GetAllData (s : KVStore) : List (String × String) :=
  s.data.getD []


/-- What `json.Decoder.Decode` into a `map[string]string` can see in a
snapshot file. `nullValue` is the JSON literal `null`, which decodes
without error but leaves the Go map nil. -/
inductive FileContent where
  | absent
  | unreadable
  | malformed
  | nullValue
  | mapObject (entries : List (String × String))
deriving DecidableEq, Repr


/-- The filesystem as seen by a node: file name to content. -/
def FileSystem : Type := String → FileContent


/-- `KVStore.LoadFromDisk` of `src/kvstore/kvstore.go:161`: a missing
file is not an error and leaves the store untouched; a decoded JSON
value replaces `data` wholesale (decoding `null` leaves it nil). -/
def KVStore.LoadFromDisk (s : KVStore) (fs : FileSystem) (filename : String) : KVResult KVStore :=
  match fs filename with
  | .absent => .ok s
  | .unreadable => .err "failed to open snapshot file"
  | .malformed => .err "failed to decode JSON data"
  | .nullValue => .ok { s with data := none }
  | .mapObject m => .ok { s with data := some m }


/-- Merge loop of `LoadAndMergeFromDisk`: `for key, value := range data
{ s.data[key] = value }`. -/
def mergeA (d m : List (String × String)) : List (String × String) :=
  m.foldl (fun acc p => insertA acc p.1 p.2) d


/-- `KVStore.LoadAndMergeFromDisk` of `src/kvstore/kvstore.go:23`: reads
`peerof<name>.snapshot.json` and merges its entries into `data`
(overwriting on collision).  Writing a nonempty decoded map into a nil
`data` map traps. -/
def KVStore.LoadAndMergeFromDisk (s : KVStore) (fs : FileSystem) : KVResult KVStore :=
  match fs ("peerof" ++ s.name ++ ".snapshot.json") with
  | .absent => .ok s
  | .unreadable => .err "failed to open snapshot file"
  | .malformed => .err "failed to decode JSON data"
  | .nullValue => .ok s
  | .mapObject m =>
      match s.data with
      | some d => .ok { s with data := some (mergeA d m) }
      | none =>
          match m with
          | [] => .ok s
          | _ :: _ => .crash


/-! ## Node-level claim theorems -/

/-- A filesystem with no files at all. -/
def fsEmpty : FileSystem := fun _ => .absent


/-- A filesystem in which every file holds the JSON literal `null`. -/
def fsNull : FileSystem := fun _ => .nullValue


/-! ## The circular doubly linked peer ring
(`src/broker/broker_server.go`, `StoreNode` / `LinkedList`) -/

/-- `StoreNode` of `src/broker/broker_server.go:418`: `Next`/`Prev` are
heap ids into the `nodes` allocation map below. -/
structure StoreNode where
  name : String
  ipAddress : String
  next : Nat
  prev : Nat
deriving DecidableEq, Repr


/-- `LinkedList` of `src/broker/broker_server.go:426`.  `nodes` is the
heap of live ring nodes (id to node), `head` the `Head` pointer, and
`fresh` the next allocation id. -/
structure LinkedList where
  nodes : List (Nat × StoreNode)
  head : Option Nat
  fresh : Nat
deriving DecidableEq, Repr


def LinkedList.empty : LinkedList := { nodes := [], head := none, fresh := 0 }


/-- A pointer write to the node at id `k` (first binding wins, like the heap). -/
def updateA {κ α : Type} [DecidableEq κ] : List (κ × α) → κ → (α → α) → List (κ × α)
  | [], _, _ => []
  | (k', v) :: t, k, f => if k' = k then (k', f v) :: t else (k', v) :: updateA t k f


def setNext (x : StoreNode) (i : Nat) : StoreNode := { x with next := i }


def setPrev (x : StoreNode) (i : Nat) : StoreNode := { x with prev := i }


/-- `LinkedList.AddNode` of `src/broker/broker_server.go:431`: an empty
list gets a self-linked node; otherwise the new node is spliced between
the tail (`Head.Prev`) and the head. -/
def LinkedList.AddNode (ll : LinkedList) (name ip : String) : LinkedList :=
  let nid := ll.fresh
  match ll.head with
  | none =>
      { nodes := insertA ll.nodes nid ⟨name, ip, nid, nid⟩,
        head := some nid, fresh := nid + 1 }
  | some h =>
      match lookupA ll.nodes h with
      | none => ll  -- dangling Head: never happens on rings the broker builds
      | some hn =>
          let tailId := hn.prev
          let ns1 := insertA ll.nodes nid ⟨name, ip, h, tailId⟩
          let ns2 := updateA ns1 tailId (fun x => setNext x nid)
          let ns3 := updateA ns2 h (fun x => setPrev x nid)
          { nodes := ns3, head := some h, fresh := nid + 1 }


/-- One full trip around the ring starting at `cur` and stopping when a
node's `next` is `stop` (the loop pattern of `RemoveNode`,
`DisplayForward` and the snapshot loop of `NotifyPeersOfEachOther`).
`fuel` bounds the trip; the callers pass the heap size. -/
def walkRing (ns : List (Nat × StoreNode)) (cur stop : Nat) : Nat → List (Nat × StoreNode)
  | 0 => []
  | fuel + 1 =>
      match lookupA ns cur with
      | none => []
      | some x => (cur, x) :: (if x.next = stop then [] else walkRing ns x.next stop fuel)


/-- Pointer surgery of `RemoveNode` once the scan has found the node
`c` (with contents `cn`): a self-linked match clears `Head`; otherwise
`current.Prev.Next = current.Next`, `current.Next.Prev = current.Prev`,
and `Head` advances if it was the match. -/
def removeSplice (ll : LinkedList) (h c : Nat) (cn : StoreNode) : LinkedList :=
  if cn.next = c then
    { nodes := eraseA ll.nodes c, head := none, fresh := ll.fresh }
  else
    { nodes := eraseA (updateA (updateA ll.nodes cn.prev (fun x => setNext x cn.next))
        cn.next (fun x => setPrev x cn.prev)) c,
      head := some (if c = h then cn.next else h), fresh := ll.fresh }


/-- `LinkedList.RemoveNode` of `src/broker/broker_server.go:448`: scan
the ring from `Head` for the first node with the given name and splice
it out; an empty list or an absent name is an error. -/
def LinkedList.RemoveNode (ll : LinkedList) (name : String) : Except String LinkedList :=
  match ll.head with
  | none => .error "list is empty"
  | some h =>
      match (walkRing ll.nodes h h ll.nodes.length).find? (fun p => p.2.name == name) with
      | none => .error ("node with name " ++ name ++ " not found")
      | some (c, cn) => .ok (removeSplice ll h c cn)


/-- The names of the nodes currently in the ring heap. -/
def ringNames (ll : LinkedList) : List String := ll.nodes.map (fun p => p.2.name)


/-- `NotifyPeersOfEachOther` of `src/broker/broker_client.go:122`: the
list of attempted notifications, as pairs (target address, `peer_ip`
payload).  The snapshot loop is a full ring trip; a message is skipped
when either address is empty or both are equal. -/
def NotifyPeersOfEachOther (ll : LinkedList) : List (String × String) :=
  match ll.head with
  | none => []
  | some h =>
      (walkRing ll.nodes h h ll.nodes.length).filterMap (fun p =>
        (lookupA ll.nodes p.2.next).bind (fun nx =>
          if p.2.ipAddress = "" ∨ nx.ipAddress = "" then none
          else if p.2.ipAddress = nx.ipAddress then none
          else some (p.2.ipAddress, nx.ipAddress)))


/-- Rings reachable from the empty list by `AddNode` / `RemoveNode`. -/
inductive RingReachable : LinkedList → Prop where
  | empty : RingReachable LinkedList.empty
  | add (ll : LinkedList) (name ip : String) :
      RingReachable ll → RingReachable (ll.AddNode name ip)
  | remove (ll ll' : LinkedList) (name : String) :
      RingReachable ll → ll.RemoveNode name = .ok ll' → RingReachable ll'


/-- The C2 invariant, phrased decidably over the heap: every live node's
`next` points at a live node whose `prev` points back (and dually);
`Head` is nil exactly on the empty heap; a single-node ring is
self-linked. -/
def ringInv (ll : LinkedList) : Prop :=
  (∀ p ∈ ll.nodes, (lookupA ll.nodes p.2.next).map StoreNode.prev = some p.1) ∧
  (∀ p ∈ ll.nodes, (lookupA ll.nodes p.2.prev).map StoreNode.next = some p.1) ∧
  (ll.head = none ↔ ll.nodes = []) ∧
  (∀ p ∈ ll.nodes, ll.nodes.length = 1 → p.2.next = p.1 ∧ p.2.prev = p.1)


/-- Next-pointer adjacency on the heap: the node at `i` exists and its
`next` is `j`. -/
def nextRel (ns : List (Nat × StoreNode)) (i j : Nat) : Prop :=
  ∃ x, lookupA ns i = some x ∧ x.next = j


/-- Prev-pointer adjacency on the heap: the node at `j` exists and its
`prev` is `i`. -/
def prevRel (ns : List (Nat × StoreNode)) (i j : Nat) : Prop :=
  ∃ x, lookupA ns j = some x ∧ x.prev = i


/-- `ids` lists the ring in next-order starting at `Head`: the inductive
invariant tying the pointer heap to one simple cycle. -/
structure RingShape (ll : LinkedList) (ids : List Nat) : Prop where
  head_eq : ll.head = ids.head?
  nodup : ids.Nodup
  keys_nodup : (keysA ll.nodes).Nodup
  mem_iff : ∀ i, i ∈ keysA ll.nodes ↔ i ∈ ids
  lt_fresh : ∀ i ∈ ids, i < ll.fresh
  next_chain : List.Chain' (nextRel ll.nodes) (ids ++ ids.take 1)
  prev_chain : List.Chain' (prevRel ll.nodes) (ids ++ ids.take 1)


/-- The node names, in heap order. -/
def namesA (l : List (Nat × StoreNode)) : List String := l.map (fun p => p.2.name)


/-! ## Broker (`src/broker/broker_server.go`) -/

/-- The sentinel `int(^uint(0) >> 1)` on a 64-bit platform. -/
def maxGoInt : Int := 2 ^ 63 - 1


/-- 64-bit signed increment, as `b.loads[storeName]++` computes it. -/
def goInc (v : Int) : Int := (v + 1 + 2 ^ 63) % 2 ^ 64 - 2 ^ 63


/-- The `Broker` struct of `src/broker/broker_server.go:401`. -/
structure Broker where
  stores : List (String × KVStore)
  loads : List (String × Int)
  peerlist : LinkedList
deriving DecidableEq


/-- `NewBroker` of `src/broker/broker_server.go:409`. -/
def NewBroker : Broker := { stores := [], loads := [], peerlist := LinkedList.empty }


/-- What the broker can observe of an outbound `GET /get?key=K`:
transport failure, HTTP 200 (with the decoded `value` field, when the
body decodes and carries one), or a non-200 status. -/
inductive GetResp where
  | down
  | ok (v : Option String)
  | notOk
deriving DecidableEq


/-- What the broker can observe of an outbound POST. -/
inductive PostResp where
  | down
  | okStatus
  | badStatus
deriving DecidableEq


/-- The node fleet as seen over HTTP from the broker: responses of each
node address to `/get`, `/set` and `/delete`. -/
structure Net where
  getKV : String → String → GetResp
  setKV : String → String → String → PostResp
  delKV : String → String → PostResp


/-- `Broker.CreateStore` of `src/broker/broker_server.go:477`: rejects a
duplicate name or an empty address, otherwise creates the descriptor
(`&kvstore.KVStore{Name, IPAddress}` — nil data map), zeroes the load,
and appends to the ring (`StartPeering` only sends notifications). -/
def Broker.CreateStore (b : Broker) (name ip_address : String) : Except String Unit × Broker :=
  if (lookupA b.stores name).isSome then
    (.error "store with this name already exists", b)
  else if ip_address = "" then
    (.error "invalid IP address", b)
  else
    (.ok (),
      { stores := insertA b.stores name
          { data := none, name := name, ipAddress := ip_address, peerIP := "" },
        loads := insertA b.loads name 0,
        peerlist := b.peerlist.AddNode name ip_address })


/-- The eviction performed by both `RemoveStore` and `GetKey`'s failure
handler: delete from `stores` and `loads`, and `RemoveNode` from the
ring with the returned error ignored. -/
def Broker.evict (b : Broker) (name : String) : Broker :=
  { stores := eraseA b.stores name,
    loads := eraseA b.loads name,
    peerlist :=
      match b.peerlist.RemoveNode name with
      | .ok ll' => ll'
      | .error _ => b.peerlist }


/-- `Broker.RemoveStore` of `src/broker/broker_server.go:518`: errors on
an unknown name, otherwise evicts (the shutdown POST and `StartPeering`
are network effects; their failures are swallowed). -/
def Broker.RemoveStore (b : Broker) (name : String) : Except String Unit × Broker :=
  if (lookupA b.stores name).isSome then
    (.ok (), b.evict name)
  else
    (.error "store not found", b)


/-- `b.loads[name]`, a Go map read with zero default. -/
def loadOf (loads : List (String × Int)) (name : String) : Int :=
  (lookupA loads name).getD 0


/-- The scan of `GetLeastLoadedStore`: `minLoad` starts at the max-int
sentinel and a store is recorded only on a strict improvement. -/
def leastLoop (loads : List (String × Int)) :
    List (String × KVStore) → Int → Option KVStore → Option KVStore
  | [], _, best => best
  | (nm, st) :: rest, minLoad, best =>
      if loadOf loads nm < minLoad then leastLoop loads rest (loadOf loads nm) (some st)
      else leastLoop loads rest minLoad best


/-- `Broker.GetLeastLoadedStore` of `src/broker/broker_server.go:553`:
errors on an empty store map; otherwise returns the recorded store —
which is nil when no load beat the sentinel. -/
def Broker.GetLeastLoadedStore (b : Broker) : Except String (Option KVStore) :=
  if b.stores.length = 0 then .error "no stores available"
  else .ok (leastLoop b.loads b.stores maxGoInt none)


/-- `Broker.IncrementLoad` of `src/broker/broker_server.go:571`:
increments only an existing counter. -/
def Broker.IncrementLoad (b : Broker) (storeName : String) : Broker :=
  match lookupA b.loads storeName with
  | some v => { b with loads := insertA b.loads storeName (goInc v) }
  | none => b


/-- Outcome of `Broker.SetKey`: the Go result, the broker state, and the
address/body of the attempted `POST /set`, when one was sent. -/
structure SetKeyOutcome where
  result : KVResult Unit
  broker : Broker
  forwarded : Option (String × String × String)
deriving DecidableEq


/-- `Broker.SetKey` of `src/broker/broker_server.go:683`: route to the
least-loaded store and forward; on HTTP 200 increment that store's
load.  When `GetLeastLoadedStore` hands back a nil store, reading
`store.IPAddress` dereferences a nil pointer (`crash`). -/
def Broker.SetKey (b : Broker) (net : Net) (key value : String) : SetKeyOutcome :=
  match b.GetLeastLoadedStore with
  | .error e => { result := .err ("no available KVStore: " ++ e), broker := b, forwarded := none }
  | .ok none => { result := .crash, broker := b, forwarded := none }
  | .ok (some store) =>
      match net.setKV store.ipAddress key value with
      | .down =>
          { result := .err ("error contacting KVStore at " ++ store.ipAddress),
            broker := b, forwarded := some (store.ipAddress, key, value) }
      | .badStatus =>
          { result := .err "KVStore returned status", broker := b,
            forwarded := some (store.ipAddress, key, value) }
      | .okStatus =>
          { result := .ok (), broker := b.IncrementLoad store.name,
            forwarded := some (store.ipAddress, key, value) }


/-- The scan of `Broker.GetKey` over the store map: a transport failure
evicts the store (after the fire-and-forget `peer-dead` POST, a pure
network effect) and continues; a 200 response with a `value` field
returns it; anything else continues. -/
def getKeyLoop (net : Net) (key : String) :
    Broker → List (String × KVStore) → Except String String × Broker
  | b, [] => (.error ("key '" ++ key ++ "' not found in any KVStore"), b)
  | b, (_, st) :: rest =>
      match net.getKV st.ipAddress key with
      | .down => getKeyLoop net key (b.evict st.name) rest
      | .ok (some v) => (.ok v, b)
      | .ok none => getKeyLoop net key b rest
      | .notOk => getKeyLoop net key b rest


/-- `Broker.GetKey` of `src/broker/broker_server.go:639`. -/
def Broker.GetKey (b : Broker) (net : Net) (key : String) : Except String String × Broker :=
  getKeyLoop net key b b.stores


/-- The probe loop of `Broker.DeleteKey`: remember the address of the
last store whose `/get` probe answered 200 (transport failures and
non-200s are skipped; no eviction here). -/
def deleteProbe (net : Net) (key : String) :
    List (String × KVStore) → Option String → Option String
  | [], acc => acc
  | (_, st) :: rest, acc =>
      match net.getKV st.ipAddress key with
      | .ok _ => deleteProbe net key rest (some st.ipAddress)
      | .down => deleteProbe net key rest acc
      | .notOk => deleteProbe net key rest acc


/-- `Broker.DeleteKey` of `src/broker/broker_server.go:715`: locate the
key by probing every store, then POST `/delete` to the found store.
No load counter is touched on any path. -/
def Broker.DeleteKey (b : Broker) (net : Net) (key : String) : Except String Bool × Broker :=
  match deleteProbe net key b.stores none with
  | none => (.error ("key '" ++ key ++ "' not found in keyLocation map"), b)
  | some ip =>
      match net.delKV ip key with
      | .down => (.error ("error contacting KVStore at " ++ ip), b)
      | .okStatus => (.ok true, b)
      | .badStatus => (.error ("failed to delete key '" ++ key ++ "'"), b)


/-- Broker states reachable from `NewBroker` by the broker operations
(under any behaviour of the node fleet). -/
inductive BrokerReachable : Broker → Prop where
  | init : BrokerReachable NewBroker
  | createStore (b : Broker) (name ip : String) :
      BrokerReachable b → BrokerReachable (b.CreateStore name ip).2
  | removeStore (b : Broker) (name : String) :
      BrokerReachable b → BrokerReachable (b.RemoveStore name).2
  | getKey (b : Broker) (net : Net) (key : String) :
      BrokerReachable b → BrokerReachable (b.GetKey net key).2
  | setKey (b : Broker) (net : Net) (key value : String) :
      BrokerReachable b → BrokerReachable (b.SetKey net key value).broker
  | deleteKey (b : Broker) (net : Net) (key : String) :
      BrokerReachable b → BrokerReachable (b.DeleteKey net key).2


/-- The broker bookkeeping invariant: the three structures are keyed by
the same names, with no duplicates anywhere, over a well-shaped ring. -/
structure BrokerInv (b : Broker) : Prop where
  stores_nodup : (keysA b.stores).Nodup
  loads_nodup : (keysA b.loads).Nodup
  shape : ∃ ids, RingShape b.peerlist ids
  names_nodup : (ringNames b.peerlist).Nodup
  store_load : ∀ n, n ∈ keysA b.stores ↔ n ∈ keysA b.loads
  store_ring : ∀ n, n ∈ keysA b.stores ↔ n ∈ ringNames b.peerlist


/-! ### C1: the bookkeeping invariant -/

/-- A fleet in which every node is unreachable. -/
def netAllDown : Net :=
  { getKV := fun _ _ => .down, setKV := fun _ _ _ => .down, delKV := fun _ _ => .down }


/-- A two-store broker used to witness least-loaded routing. -/
def brokerTwo : Broker :=
  { stores := [("a", { data := none, name := "a", ipAddress := "10.0.0.1:1", peerIP := "" }),
      ("b", { data := none, name := "b", ipAddress := "10.0.0.2:2", peerIP := "" })],
    loads := [("a", 5), ("b", 3)],
    peerlist := LinkedList.empty }


/-- The two-node ring used to witness the notification set. -/
def ringTwo : LinkedList :=
  (LinkedList.empty.AddNode "a" "10.0.0.1:1").AddNode "b" "10.0.0.2:2"


theorem lookupA_nil {κ α : Type} [DecidableEq κ] (k : κ) :
    lookupA ([] : List (κ × α)) k = none := rfl


theorem lookupA_cons {κ α : Type} [DecidableEq κ] (k' : κ) (v : α) (t : List (κ × α)) (k : κ) :
    lookupA ((k', v) :: t) k = if k' = k then some v else lookupA t k := rfl


theorem lookupA_insertA_self {κ α : Type} [DecidableEq κ] (l : List (κ × α)) (k : κ) (v : α) :
    lookupA (insertA l k v) k = some v := by
  induction l with
  | nil => simp [insertA, lookupA]
  | cons p t ih =>
      obtain ⟨k', v'⟩ := p
      by_cases h : k' = k
      · simp [insertA, lookupA, h]
      · simp [insertA, lookupA, h, ih]


theorem lookupA_insertA_ne {κ α : Type} [DecidableEq κ] (l : List (κ × α)) (k k' : κ) (v : α)
    (h : k' ≠ k) : lookupA (insertA l k v) k' = lookupA l k' := by
  have hk : k ≠ k' := fun hh => h hh.symm
  induction l with
  | nil => simp [insertA, lookupA, hk]
  | cons p t ih =>
      obtain ⟨k₀, v₀⟩ := p
      by_cases h0 : k₀ = k
      · subst h0
        simp [insertA, lookupA, hk]
      · simp only [insertA, if_neg h0, lookupA]
        by_cases h1 : k₀ = k'
        · simp [h1]
        · simp [h1, ih]


theorem lookupA_eraseA_self {κ α : Type} [DecidableEq κ] (l : List (κ × α)) (k : κ) :
    lookupA (eraseA l k) k = none := by
  induction l with
  | nil => rfl
  | cons p t ih =>
      obtain ⟨k', v'⟩ := p
      by_cases h : k' = k
      · simpa [eraseA, h] using ih
      · simpa [eraseA, lookupA, h] using ih


theorem lookupA_eraseA_ne {κ α : Type} [DecidableEq κ] (l : List (κ × α)) (k k' : κ)
    (h : k' ≠ k) : lookupA (eraseA l k) k' = lookupA l k' := by
  have hk : k ≠ k' := fun hh => h hh.symm
  induction l with
  | nil => rfl
  | cons p t ih =>
      obtain ⟨k₀, v₀⟩ := p
      by_cases h0 : k₀ = k
      · subst h0
        simpa [eraseA, lookupA, hk] using ih
      · by_cases h1 : k₀ = k'
        · subst h1
          have : eraseA ((k₀, v₀) :: t) k = (k₀, v₀) :: eraseA t k := by
            simp [eraseA, h0]
          simp [this, lookupA]
        · simpa [eraseA, lookupA, h0, h1] using ih


theorem lookupA_isSome_iff_mem_keysA {κ α : Type} [DecidableEq κ] (l : List (κ × α)) (k : κ) :
    (lookupA l k).isSome ↔ k ∈ keysA l := by
  induction l with
  | nil => simp [lookupA, keysA]
  | cons p t ih =>
      obtain ⟨k', v'⟩ := p
      by_cases h : k' = k
      · simp [lookupA, keysA, h]
      · simp [lookupA, keysA, h, ih, Ne.symm h]


theorem lookupA_mergeA (m : List (String × String)) (d : List (String × String))
    (hm : (keysA m).Nodup) (k : String) :
    lookupA (mergeA d m) k =
      match lookupA m k with
      | some v => some v
      | none => lookupA d k := by
  induction m generalizing d with
  | nil => simp [mergeA, lookupA]
  | cons p t ih =>
      obtain ⟨k₀, v₀⟩ := p
      have hm' : (keysA t).Nodup := (List.nodup_cons.mp hm).2
      have hk₀ : k₀ ∉ keysA t := (List.nodup_cons.mp hm).1
      have : mergeA d ((k₀, v₀) :: t) = mergeA (insertA d k₀ v₀) t := rfl
      rw [this, ih (insertA d k₀ v₀) hm']
      by_cases h : k₀ = k
      · subst h
        have ht : lookupA t k₀ = none := by
          cases hlt : lookupA t k₀ with
          | none => rfl
          | some v =>
              exact absurd ((lookupA_isSome_iff_mem_keysA t k₀).mp (by simp [hlt])) hk₀
        simp [lookupA, ht, lookupA_insertA_self]
      · simp [lookupA, h, lookupA_insertA_ne d k₀ k v₀ (Ne.symm h)]


/-- C3 (counterexample): the round trip does not hold for *any* key:
on the empty key, `Set` reports a failure rather than success, and the
subsequent `Get` misses. -/
theorem set_get_roundtrip_fails_on_empty_key :
    (NewKVStore "n" "7001").Set "" "v" = KVResult.err "key cannot be empty" ∧
    (NewKVStore "n" "7001").Get "" = Except.error "key not found" := by
  constructor <;> rfl


/-- C3 (amended): for every node whose data map is allocated and every
non-empty key `k` and value `v`, `Set k v` reports success and a
subsequent `Get k` on the resulting node returns `v`. -/
theorem set_get_roundtrip (s : KVStore) (d : List (String × String)) (k v : String)
    (hd : s.data = some d) (hk : k ≠ "") :
    ∃ s', s.Set k v = .ok s' ∧ s'.Get k = .ok v := by
  refine ⟨{ s with data := some (insertA d k v) }, ?_, ?_⟩
  · simp [KVStore.Set, hk, hd]
  · simp [KVStore.Get, readData, lookupA_insertA_self]


/-- C3 (witness). -/
theorem set_get_roundtrip_witness :
    ∃ s', (NewKVStore "n" "7001").Set "k" "v" = .ok s' ∧ s'.Get "k" = .ok "v" :=
  set_get_roundtrip (NewKVStore "n" "7001") [] "k" "v" rfl (by decide)


/-- C5 (counterexample): `LoadFromDisk` on a missing file succeeds but
does *not* leave the store empty: a pre-existing binding survives. -/
theorem loadFromDisk_missing_not_empty :
    ({ data := some [("a", "b")], name := "n", ipAddress := "i", peerIP := "" } :
        KVStore).LoadFromDisk fsEmpty "gone.snapshot.json" =
      .ok { data := some [("a", "b")], name := "n", ipAddress := "i", peerIP := "" } ∧
    ({ data := some [("a", "b")], name := "n", ipAddress := "i", peerIP := "" } :
        KVStore).Get "a" = .ok "b" := by
  constructor <;> rfl


/-- C5 (amended): for every node state and every path naming a missing
file, `LoadFromDisk` returns success and leaves the node — in
particular its data mapping — completely unchanged. -/
theorem loadFromDisk_missing_is_noop (s : KVStore) (fs : FileSystem) (path : String)
    (h : fs path = .absent) : s.LoadFromDisk fs path = .ok s := by
  simp [KVStore.LoadFromDisk, h]


/-- C5 (witness). -/
theorem loadFromDisk_missing_is_noop_witness :
    (NewKVStore "n" "7001").LoadFromDisk fsEmpty "gone.snapshot.json" =
      .ok (NewKVStore "n" "7001") :=
  loadFromDisk_missing_is_noop (NewKVStore "n" "7001") fsEmpty "gone.snapshot.json" rfl


/-- C6: merge semantics of takeover.  If the node's data map holds `d`
and `peerof<name>.snapshot.json` decodes to the mapping `p`, then
`LoadAndMergeFromDisk` succeeds and afterwards every key `k` maps to
`p[k]` when `k` is bound in `p`, and to `d[k]` otherwise. -/
theorem loadAndMerge_semantics (s : KVStore) (d p : List (String × String)) (fs : FileSystem)
    (hd : s.data = some d)
    (hfile : fs ("peerof" ++ s.name ++ ".snapshot.json") = .mapObject p)
    (hp : (keysA p).Nodup) :
    ∃ m, s.LoadAndMergeFromDisk fs = .ok { s with data := some m } ∧
      ∀ k, lookupA m k =
        match lookupA p k with
        | some v => some v
        | none => lookupA d k := by
  refine ⟨mergeA d p, ?_, fun k => lookupA_mergeA p d hp k⟩
  simp [KVStore.LoadAndMergeFromDisk, hfile, hd]


/-- C6 (witness). -/
theorem loadAndMerge_semantics_witness :
    ∃ m, ({ data := some [("a", "1"), ("b", "2")], name := "n", ipAddress := "i",
            peerIP := "" } : KVStore).LoadAndMergeFromDisk
          (fun p => if p = "peerofn.snapshot.json" then .mapObject [("a", "9"), ("c", "3")]
                    else .absent) =
        .ok { data := some m, name := "n", ipAddress := "i", peerIP := "" } ∧
      ∀ k, lookupA m k =
        match lookupA [("a", "9"), ("c", "3")] k with
        | some v => some v
        | none => lookupA [("a", "1"), ("b", "2")] k :=
  loadAndMerge_semantics
    { data := some [("a", "1"), ("b", "2")], name := "n", ipAddress := "i", peerIP := "" }
    [("a", "1"), ("b", "2")] [("a", "9"), ("c", "3")]
    (fun p => if p = "peerofn.snapshot.json" then .mapObject [("a", "9"), ("c", "3")]
              else .absent)
    rfl (by decide) (by decide)


/-- C9: frame property of node mutations.  On a node whose data map is
allocated, a successful `Set k v` changes the binding of no key other
than `k`, and a successful `Delete k` removes exactly `k`, leaving
every other binding unchanged. -/
theorem set_delete_frame (s : KVStore) (d : List (String × String)) (k v k' : String)
    (hd : s.data = some d) (hne : k' ≠ k) :
    (∀ s', s.Set k v = .ok s' → readData s'.data k' = readData s.data k') ∧
    (∀ s', s.Delete k = .ok s' →
      readData s'.data k' = readData s.data k' ∧ readData s'.data k = none) := by
  constructor
  · intro s' hs'
    by_cases hk : k = ""
    · simp [KVStore.Set, hk] at hs'
    · simp only [KVStore.Set, if_neg hk, hd] at hs'
      cases hs'
      simp [readData, hd, lookupA_insertA_ne d k k' v hne]
  · intro s' hs'
    simp only [KVStore.Delete, hd, readData] at hs'
    cases hlk : lookupA d k with
    | none => simp [hlk] at hs'
    | some w =>
        simp only [hlk, Option.map_some] at hs'
        cases hs'
        constructor
        · simp [readData, hd, lookupA_eraseA_ne d k k' hne]
        · simp [readData, hd, lookupA_eraseA_self]


/-- C9 (witness). -/
theorem set_delete_frame_witness :
    (∀ s', ({ data := some [("a", "1"), ("b", "2")], name := "n", ipAddress := "i",
              peerIP := "" } : KVStore).Set "a" "9" = .ok s' →
        readData s'.data "b" =
          readData (some [("a", "1"), ("b", "2")]) "b") ∧
    (∀ s', ({ data := some [("a", "1"), ("b", "2")], name := "n", ipAddress := "i",
              peerIP := "" } : KVStore).Delete "a" = .ok s' →
        readData s'.data "b" = readData (some [("a", "1"), ("b", "2")]) "b" ∧
        readData s'.data "a" = none) :=
  set_delete_frame
    { data := some [("a", "1"), ("b", "2")], name := "n", ipAddress := "i", peerIP := "" }
    [("a", "1"), ("b", "2")] "a" "9" "b" rfl (by decide)


/-- C10: `LoadFromDisk` on a file holding the JSON literal `null`
succeeds but leaves the node's data map nil, after which a `Set` with a
non-empty key traps (a write to a nil Go map panics) — the code
violates the claimed non-nil safety property. -/
theorem loadFromDisk_null_then_set_traps :
    ∃ s', (NewKVStore "n" "7001").LoadFromDisk fsNull "n.snapshot.json" = .ok s' ∧
      s'.data = none ∧ s'.Set "x" "y" = .crash := by
  refine ⟨{ NewKVStore "n" "7001" with data := none }, ?_, rfl, ?_⟩ <;> rfl


/-! ### Heap bookkeeping lemmas -/

theorem lookupA_updateA_self {κ α : Type} [DecidableEq κ] (l : List (κ × α)) (k : κ)
    (f : α → α) : lookupA (updateA l k f) k = (lookupA l k).map f := by
  induction l with
  | nil => rfl
  | cons p t ih =>
      obtain ⟨k₀, v₀⟩ := p
      by_cases h : k₀ = k
      · simp [updateA, lookupA, h]
      · simp [updateA, lookupA, h, ih]


theorem lookupA_updateA_ne {κ α : Type} [DecidableEq κ] (l : List (κ × α)) (k k' : κ)
    (f : α → α) (h : k' ≠ k) : lookupA (updateA l k f) k' = lookupA l k' := by
  induction l with
  | nil => rfl
  | cons p t ih =>
      obtain ⟨k₀, v₀⟩ := p
      by_cases h0 : k₀ = k
      · subst h0
        have hk' : k₀ ≠ k' := fun hh => h hh.symm
        simp [updateA, lookupA, hk']
      · by_cases h1 : k₀ = k'
        · simp [updateA, lookupA, h0, h1, h]
        · simp [updateA, lookupA, h0, h1, ih]


theorem keysA_updateA {κ α : Type} [DecidableEq κ] (l : List (κ × α)) (k : κ) (f : α → α) :
    keysA (updateA l k f) = keysA l := by
  induction l with
  | nil => rfl
  | cons p t ih =>
      obtain ⟨k₀, v₀⟩ := p
      by_cases h : k₀ = k
      · simp [updateA, keysA, h]
      · simp only [updateA, if_neg h, keysA, List.map_cons]
        exact congrArg (k₀ :: ·) ih


theorem keysA_insertA_of_not_mem {κ α : Type} [DecidableEq κ] (l : List (κ × α)) (k : κ)
    (v : α) (h : k ∉ keysA l) : keysA (insertA l k v) = keysA l ++ [k] := by
  induction l with
  | nil => rfl
  | cons p t ih =>
      obtain ⟨k₀, v₀⟩ := p
      have hk₀ : k₀ ≠ k := by
        intro hh
        exact h (by simp [keysA, hh])
      have ht : k ∉ keysA t := fun hh => h (by simp [keysA] at hh ⊢; exact Or.inr hh)
      simp only [insertA, if_neg hk₀, keysA, List.map_cons, List.cons_append]
      exact congrArg (k₀ :: ·) (ih ht)


theorem keysA_eraseA {κ α : Type} [DecidableEq κ] (l : List (κ × α)) (k : κ) :
    keysA (eraseA l k) = (keysA l).filter (fun j => !(j == k)) := by
  unfold eraseA keysA
  rw [List.filter_map]
  rfl


theorem lookupA_eq_of_mem {κ α : Type} [DecidableEq κ] (l : List (κ × α)) (k : κ) (v : α)
    (hn : (keysA l).Nodup) (h : (k, v) ∈ l) : lookupA l k = some v := by
  induction l with
  | nil => cases h
  | cons p t ih =>
      obtain ⟨k₀, v₀⟩ := p
      rcases List.mem_cons.mp h with h1 | h1
      · cases h1
        simp [lookupA]
      · have hk : k₀ ≠ k := by
          intro hh
          subst hh
          exact (List.nodup_cons.mp hn).1 (by
            simpa [keysA] using List.mem_map_of_mem Prod.fst h1)
        simp [lookupA, hk, ih (List.nodup_cons.mp hn).2 h1]


theorem mem_of_lookupA_eq_some {κ α : Type} [DecidableEq κ] (l : List (κ × α)) (k : κ) (v : α)
    (h : lookupA l k = some v) : (k, v) ∈ l := by
  induction l with
  | nil => cases h
  | cons p t ih =>
      obtain ⟨k₀, v₀⟩ := p
      by_cases hk : k₀ = k
      · subst hk
        rw [lookupA_cons, if_pos rfl] at h
        injection h with h
        subst h
        exact List.mem_cons_self _ _
      · simp only [lookupA, if_neg hk] at h
        exact List.mem_cons_of_mem _ (ih h)


theorem getLast_not_mem_dropLast {α : Type} (l : List α) (hne : l ≠ []) (hn : l.Nodup) :
    l.getLast hne ∉ l.dropLast := by
  intro hmem
  have hsplit := List.dropLast_append_getLast hne
  rw [← hsplit] at hn
  rcases List.nodup_append.mp hn with ⟨_, _, hdisj⟩
  exact hdisj hmem (List.mem_singleton_self _)


/-! ### Chain transfer lemmas: a pointer write away from the relevant
field leaves ring adjacency intact. -/

theorem chain'_nextRel_congr (ns ns' : List (Nat × StoreNode)) :
    ∀ (l : List Nat),
      (∀ u ∈ l.dropLast,
        (lookupA ns' u).map StoreNode.next = (lookupA ns u).map StoreNode.next) →
      List.Chain' (nextRel ns) l → List.Chain' (nextRel ns') l
  | [], _, _ => List.chain'_nil
  | [_], _, _ => List.chain'_singleton _
  | u :: w :: t, hpres, hch => by
      rcases List.chain'_cons.mp hch with ⟨⟨x, hx, hxn⟩, hch'⟩
      have hu : u ∈ (u :: w :: t).dropLast := by
        rw [List.dropLast_cons₂]
        exact List.mem_cons_self _ _
      have := hpres u hu
      rw [hx] at this
      rcases Option.map_eq_some'.mp this with ⟨x', hx', hxn'⟩
      refine List.chain'_cons.mpr ⟨⟨x', hx', hxn'.trans hxn⟩, ?_⟩
      exact chain'_nextRel_congr ns ns' (w :: t)
        (fun z hz => hpres z (by
          rw [List.dropLast_cons₂]
          exact List.mem_cons_of_mem _ hz)) hch'


theorem chain'_prevRel_congr (ns ns' : List (Nat × StoreNode)) :
    ∀ (l : List Nat),
      (∀ w ∈ l.tail,
        (lookupA ns' w).map StoreNode.prev = (lookupA ns w).map StoreNode.prev) →
      List.Chain' (prevRel ns) l → List.Chain' (prevRel ns') l
  | [], _, _ => List.chain'_nil
  | [_], _, _ => List.chain'_singleton _
  | u :: w :: t, hpres, hch => by
      rcases List.chain'_cons.mp hch with ⟨⟨x, hx, hxp⟩, hch'⟩
      have hw : w ∈ (u :: w :: t).tail := List.mem_cons_self _ _
      have := hpres w hw
      rw [hx] at this
      rcases Option.map_eq_some'.mp this with ⟨x', hx', hxp'⟩
      refine List.chain'_cons.mpr ⟨⟨x', hx', hxp'.trans hxp⟩, ?_⟩
      exact chain'_prevRel_congr ns ns' (w :: t)
        (fun z hz => hpres z (List.mem_cons_of_mem _ hz)) hch'


/-! ### The ring walk visits the cycle exactly once -/

theorem RingShape.lookup_isSome {ll : LinkedList} {ids : List Nat} (h : RingShape ll ids)
    (i : Nat) (hi : i ∈ ids) : ∃ x, lookupA ll.nodes i = some x := by
  have h1 := (h.mem_iff i).mpr hi
  have h2 := (lookupA_isSome_iff_mem_keysA ll.nodes i).mpr h1
  exact Option.isSome_iff_exists.mp h2


theorem RingShape.length_nodes {ll : LinkedList} {ids : List Nat} (h : RingShape ll ids) :
    ll.nodes.length = ids.length := by
  have hperm : List.Perm (keysA ll.nodes) ids :=
    (List.perm_ext_iff_of_nodup h.keys_nodup h.nodup).mpr h.mem_iff
  have hlen := hperm.length_eq
  simpa [keysA] using hlen


theorem walkRing_spec (ns : List (Nat × StoreNode)) (a : Nat) :
    ∀ (rest : List Nat) (c : Nat) (fuel : Nat),
      List.Chain' (nextRel ns) (c :: rest ++ [a]) → a ∉ rest → rest.length + 1 ≤ fuel →
      (walkRing ns c a fuel).map Prod.fst = c :: rest ∧
      ∀ p ∈ walkRing ns c a fuel, lookupA ns p.1 = some p.2 := by
  intro rest
  induction rest with
  | nil =>
      intro c fuel hch _ hfuel
      obtain ⟨f, rfl⟩ : ∃ f, fuel = f + 1 := by
        cases fuel with
        | zero => omega
        | succ f => exact ⟨f, rfl⟩
      have hca : nextRel ns c a := by simpa using hch
      rcases hca with ⟨x, hx, hxa⟩
      constructor
      · simp [walkRing, hx, hxa]
      · intro p hp
        simp [walkRing, hx, hxa] at hp
        subst hp
        exact hx
  | cons w rest' ih =>
      intro c fuel hch ha hfuel
      obtain ⟨f, rfl⟩ : ∃ f, fuel = f + 1 := by
        cases fuel with
        | zero => omega
        | succ f => exact ⟨f, rfl⟩
      have hch' : List.Chain' (nextRel ns) (c :: w :: (rest' ++ [a])) := by simpa using hch
      rcases List.chain'_cons.mp hch' with ⟨⟨x, hx, hxw⟩, hchtail⟩
      have hwa : w ≠ a := by
        intro hh
        exact ha (by simp [hh])
      have ha' : a ∉ rest' := fun hh => ha (List.mem_cons_of_mem _ hh)
      have hf : rest'.length + 1 ≤ f := by
        simp only [List.length_cons] at hfuel
        omega
      obtain ⟨ihmap, ihmem⟩ := ih w f (by simpa using hchtail) ha' hf
      have hstep : walkRing ns c a (f + 1) = (c, x) :: walkRing ns w a f := by
        simp [walkRing, hx, hxw, hwa]
      constructor
      · simp [hstep, ihmap]
      · intro p hp
        rw [hstep] at hp
        rcases List.mem_cons.mp hp with hp | hp
        · subst hp
          exact hx
        · exact ihmem p hp


theorem walk_of_shape {ll : LinkedList} {a : Nat} {t : List Nat} (h : RingShape ll (a :: t)) :
    (walkRing ll.nodes a a ll.nodes.length).map Prod.fst = a :: t ∧
    ∀ p ∈ walkRing ll.nodes a a ll.nodes.length, lookupA ll.nodes p.1 = some p.2 := by
  have hch : List.Chain' (nextRel ll.nodes) (a :: t ++ [a]) := by
    have := h.next_chain
    simpa using this
  have hna : a ∉ t := (List.nodup_cons.mp h.nodup).1
  have hlen : ll.nodes.length = t.length + 1 := by
    rw [h.length_nodes]
    simp
  exact walkRing_spec ll.nodes a t a ll.nodes.length hch hna (by omega)


theorem mem_walk_iff {ll : LinkedList} {a : Nat} {t : List Nat} (h : RingShape ll (a :: t))
    (p : Nat × StoreNode) :
    p ∈ walkRing ll.nodes a a ll.nodes.length ↔ p ∈ ll.nodes := by
  obtain ⟨hmap, hmem⟩ := walk_of_shape h
  constructor
  · intro hp
    exact mem_of_lookupA_eq_some ll.nodes p.1 p.2 (hmem p hp)
  · intro hp
    have hk : p.1 ∈ keysA ll.nodes := by
      simpa [keysA] using List.mem_map_of_mem Prod.fst hp
    have hids : p.1 ∈ a :: t := (h.mem_iff p.1).mp hk
    rw [← hmap] at hids
    rcases List.mem_map.mp hids with ⟨q, hq, hq1⟩
    have hlq : lookupA ll.nodes q.1 = some q.2 := hmem q hq
    have hlp : lookupA ll.nodes p.1 = some p.2 :=
      lookupA_eq_of_mem ll.nodes p.1 p.2 h.keys_nodup hp
    have : q.2 = p.2 := by
      rw [hq1, hlp] at hlq
      exact (Option.some.inj hlq).symm
    have hqp : q = p := Prod.ext hq1 this
    rwa [hqp] at hq



/-! ### `AddNode` preserves the ring shape -/

theorem lookupA_updateA_map_field {β : Type} (g : StoreNode → β) (l : List (Nat × StoreNode))
    (k : Nat) (f : StoreNode → StoreNode) (hf : ∀ x, g (f x) = g x) (j : Nat) :
    (lookupA (updateA l k f) j).map g = (lookupA l j).map g := by
  by_cases hj : j = k
  · subst hj
    rw [lookupA_updateA_self, Option.map_map]
    cases lookupA l j with
    | none => rfl
    | some x => simp [hf]
  · rw [lookupA_updateA_ne l k j f hj]


theorem RingShape_AddNode {ll : LinkedList} {ids : List Nat} (h : RingShape ll ids)
    (name ip : String) :
    RingShape (ll.AddNode name ip) (ids ++ [ll.fresh]) := by
  cases ids with
  | nil =>
      have hhead : ll.head = none := h.head_eq
      have hkeys : keysA ll.nodes = [] := by
        rcases hk : keysA ll.nodes with _ | ⟨i, r⟩
        · rfl
        · exact absurd ((h.mem_iff i).mp (by rw [hk]; exact List.mem_cons_self _ _))
            (List.not_mem_nil i)
      have hnodes : ll.nodes = [] := by
        rcases hn : ll.nodes with _ | ⟨p, r⟩
        · rfl
        · rw [hn] at hkeys
          cases hkeys
      have hAdd : ll.AddNode name ip =
          { nodes := [(ll.fresh, ⟨name, ip, ll.fresh, ll.fresh⟩)],
            head := some ll.fresh, fresh := ll.fresh + 1 } := by
        simp [LinkedList.AddNode, hhead, hnodes, insertA]
      rw [hAdd]
      refine ⟨rfl, by simp, by simp [keysA], ?_, ?_, ?_, ?_⟩
      · intro i
        simp [keysA]
      · intro i hi
        simp only [List.nil_append, List.mem_singleton] at hi
        subst hi
        exact Nat.lt_succ_self ll.fresh
      · refine List.chain'_pair.mpr ?_
        exact ⟨⟨name, ip, ll.fresh, ll.fresh⟩, by simp [lookupA], rfl⟩
      · refine List.chain'_pair.mpr ?_
        exact ⟨⟨name, ip, ll.fresh, ll.fresh⟩, by simp [lookupA], rfl⟩
  | cons a t =>
      have hhead : ll.head = some a := by rw [h.head_eq]; rfl
      obtain ⟨hn, hlook⟩ := h.lookup_isSome a (List.mem_cons_self a t)
      have hane : (a :: t) ≠ [] := List.cons_ne_nil a t
      have hglmem : (a :: t).getLast hane ∈ a :: t := List.getLast_mem hane
      have hpc : List.Chain' (prevRel ll.nodes) ((a :: t) ++ [a]) := by
        have := h.prev_chain
        simpa using this
      have hnc : List.Chain' (nextRel ll.nodes) ((a :: t) ++ [a]) := by
        have := h.next_chain
        simpa using this
      have hprev_a : hn.prev = (a :: t).getLast hane := by
        have hj := (List.chain'_append.mp hpc).2.2
        have hS : prevRel ll.nodes ((a :: t).getLast hane) a := by
          refine hj _ ?_ a rfl
          rw [List.getLast?_eq_getLast (a :: t) hane]
          rfl
        rcases hS with ⟨x, hx, hxp⟩
        rw [hlook] at hx
        cases hx
        exact hxp
      have hfresh_not : ll.fresh ∉ a :: t := by
        intro hmem
        exact absurd (h.lt_fresh ll.fresh hmem) (lt_irrefl _)
      have hfka : ll.fresh ≠ a := by
        intro hh
        exact hfresh_not (hh ▸ List.mem_cons_self a t)
      have hfknotkeys : ll.fresh ∉ keysA ll.nodes := by
        intro hh
        exact hfresh_not ((h.mem_iff ll.fresh).mp hh)
      have hAdd : ll.AddNode name ip =
          { nodes := updateA (updateA (insertA ll.nodes ll.fresh ⟨name, ip, a, hn.prev⟩)
                hn.prev (fun x => setNext x ll.fresh)) a (fun x => setPrev x ll.fresh),
            head := some a, fresh := ll.fresh + 1 } := by
        simp [LinkedList.AddNode, hhead, hlook]
      rcases t with _ | ⟨b, t'⟩
      · -- one-node ring: Head is its own tail, the heap is [(a, hn)]
        have hkeys : keysA ll.nodes = [a] := by
          have hnd : (keysA ll.nodes).Nodup := h.keys_nodup
          have hmem : ∀ i, i ∈ keysA ll.nodes ↔ i ∈ [a] := h.mem_iff
          have hperm : List.Perm (keysA ll.nodes) [a] :=
            (List.perm_ext_iff_of_nodup hnd (by simp)).mpr hmem
          rcases List.perm_singleton.mp hperm with hh
          exact hh
        have hnodes : ll.nodes = [(a, hn)] := by
          rcases hnd : ll.nodes with _ | ⟨⟨i, x⟩, r⟩
          · rw [hnd] at hkeys
            cases hkeys
          · rw [hnd] at hkeys
            rcases r with _ | ⟨q, r'⟩
            · simp only [keysA, List.map_cons, List.map_nil] at hkeys
              have hia : i = a := by
                injection hkeys
              subst hia
              have : lookupA [(i, x)] i = some x := by simp [lookupA]
              rw [← hnd] at this
              rw [hlook] at this
              cases this
              rfl
            · exfalso
              simp only [keysA, List.map_cons] at hkeys
              injection hkeys with h1 h2
              cases h2
        have hpa : hn.prev = a := by
          rw [hprev_a]
          rfl
        rw [hAdd, hpa, hnodes]
        have hns : updateA (updateA (insertA [(a, hn)] ll.fresh ⟨name, ip, a, a⟩)
              a (fun x => setNext x ll.fresh)) a (fun x => setPrev x ll.fresh) =
            [(a, setPrev (setNext hn ll.fresh) ll.fresh),
             (ll.fresh, ⟨name, ip, a, a⟩)] := by
          have h1 : insertA [(a, hn)] ll.fresh ⟨name, ip, a, a⟩ =
              [(a, hn), (ll.fresh, ⟨name, ip, a, a⟩)] := by
            simp [insertA, hfka.symm]
          rw [h1]
          simp [updateA, hfka.symm]
        rw [hns]
        refine ⟨rfl, ?_, ?_, ?_, ?_, ?_, ?_⟩
        · simp [hfka.symm]
        · simp [keysA, hfka.symm]
        · intro i
          constructor
          · intro hi
            simp only [keysA, List.map_cons, List.map_nil] at hi
            simpa using hi
          · intro hi
            simp only [List.cons_append, List.nil_append] at hi
            simp only [keysA, List.map_cons, List.map_nil]
            simpa using hi
        · intro i hi
          have hi2 : i = a ∨ i = ll.fresh := by simpa using hi
          show i < ll.fresh + 1
          have ha : a < ll.fresh := h.lt_fresh a (List.mem_cons_self a [])
          rcases hi2 with h2 | h2 <;> omega
        · -- next chain over [a, fresh, a]
          refine List.chain'_cons.mpr ⟨?_, List.chain'_pair.mpr ?_⟩
          · exact ⟨setPrev (setNext hn ll.fresh) ll.fresh, by simp [lookupA], rfl⟩
          · exact ⟨⟨name, ip, a, a⟩, by simp [lookupA, Ne.symm hfka], rfl⟩
        · -- prev chain over [a, fresh, a]
          refine List.chain'_cons.mpr ⟨?_, List.chain'_pair.mpr ?_⟩
          · exact ⟨⟨name, ip, a, a⟩, by simp [lookupA, Ne.symm hfka], rfl⟩
          · exact ⟨setPrev (setNext hn ll.fresh) ll.fresh, by simp [lookupA], rfl⟩
      · -- at least two nodes: the tail getLast is distinct from the head
        have hane' : (a :: b :: t') ≠ [] := List.cons_ne_nil _ _
        have hgl_tail : (a :: b :: t').getLast hane' = (b :: t').getLast (List.cons_ne_nil b t') :=
          List.getLast_cons (List.cons_ne_nil b t')
        have hglt : (a :: b :: t').getLast hane' ∈ b :: t' := by
          rw [hgl_tail]
          exact List.getLast_mem _
        have hnodup := h.nodup
        have hna : a ∉ b :: t' := (List.nodup_cons.mp hnodup).1
        have hgla : (a :: b :: t').getLast hane' ≠ a := by
          intro hh
          exact hna (hh ▸ hglt)
        have hfkgl : ll.fresh ≠ (a :: b :: t').getLast hane' := by
          intro hh
          exact hfresh_not (hh ▸ List.getLast_mem hane')
        obtain ⟨xgl, hxgl⟩ := h.lookup_isSome _ (List.getLast_mem hane')
        rw [hAdd]
        set gl := (a :: b :: t').getLast hane' with hgldef
        set newNode : StoreNode := ⟨name, ip, a, hn.prev⟩ with hnewdef
        set ns1 : List (Nat × StoreNode) := insertA ll.nodes ll.fresh newNode with hns1
        set ns3 : List (Nat × StoreNode) :=
          updateA (updateA ns1 hn.prev (fun x => setNext x ll.fresh)) a
            (fun x => setPrev x ll.fresh) with hns3
        have hl1 : ∀ j, j ≠ ll.fresh → lookupA ns1 j = lookupA ll.nodes j := by
          intro j hj
          exact lookupA_insertA_ne ll.nodes ll.fresh j newNode hj
        have hl1f : lookupA ns1 ll.fresh = some newNode :=
          lookupA_insertA_self ll.nodes ll.fresh newNode
        have hl3_next : ∀ j, j ≠ gl → j ≠ ll.fresh →
            (lookupA ns3 j).map StoreNode.next = (lookupA ll.nodes j).map StoreNode.next := by
          intro j hj hjf
          rw [hns3, lookupA_updateA_map_field StoreNode.next
              (updateA ns1 hn.prev fun x => setNext x ll.fresh) a
              (fun x => setPrev x ll.fresh) (fun x => rfl) j,
            lookupA_updateA_ne _ hn.prev j _ (by rw [hprev_a]; exact hj), hl1 j hjf]
        have hl3_prev : ∀ j, j ≠ a → j ≠ ll.fresh →
            (lookupA ns3 j).map StoreNode.prev = (lookupA ll.nodes j).map StoreNode.prev := by
          intro j hj hjf
          rw [hns3, lookupA_updateA_ne _ a j _ hj,
            lookupA_updateA_map_field StoreNode.prev ns1 hn.prev
              (fun x => setNext x ll.fresh) (fun x => rfl) j, hl1 j hjf]
        have hl3f : lookupA ns3 ll.fresh = some newNode := by
          rw [hns3, lookupA_updateA_ne _ a ll.fresh _ hfka,
            lookupA_updateA_ne _ hn.prev ll.fresh _ (by rw [hprev_a]; exact hfkgl), hl1f]
        have hl3gl : lookupA ns3 gl = some (setNext xgl ll.fresh) := by
          rw [hns3, lookupA_updateA_ne _ a gl _ hgla, hprev_a]
          rw [lookupA_updateA_self, hl1 gl (fun hh => hfkgl hh.symm), hxgl]
          rfl
        have hl3a : lookupA ns3 a = some (setPrev hn ll.fresh) := by
          rw [hns3, lookupA_updateA_self,
            lookupA_updateA_ne _ hn.prev a _ (by rw [hprev_a]; exact fun hh => hgla hh.symm),
            hl1 a (Ne.symm hfka), hlook]
          rfl
        have hkeys3 : keysA ns3 = keysA ll.nodes ++ [ll.fresh] := by
          rw [hns3, keysA_updateA, keysA_updateA, hns1,
            keysA_insertA_of_not_mem ll.nodes ll.fresh newNode hfknotkeys]
        refine ⟨rfl, ?_, ?_, ?_, ?_, ?_, ?_⟩
        · rw [List.nodup_append]
          exact ⟨hnodup, by simp, by
            intro x hx hy
            rcases List.mem_singleton.mp hy with rfl
            exact hfresh_not hx⟩
        · rw [hkeys3, List.nodup_append]
          exact ⟨h.keys_nodup, by simp, by
            intro x hx hy
            rcases List.mem_singleton.mp hy with rfl
            exact hfknotkeys hx⟩
        · intro i
          rw [hkeys3]
          constructor
          · intro hi
            rcases List.mem_append.mp hi with hi | hi
            · exact List.mem_append.mpr (Or.inl ((h.mem_iff i).mp hi))
            · exact List.mem_append.mpr (Or.inr hi)
          · intro hi
            rcases List.mem_append.mp hi with hi | hi
            · exact List.mem_append.mpr (Or.inl ((h.mem_iff i).mpr hi))
            · exact List.mem_append.mpr (Or.inr hi)
        · intro i hi
          show i < ll.fresh + 1
          rcases List.mem_append.mp hi with hi | hi
          · have := h.lt_fresh i hi
            omega
          · rcases List.mem_singleton.mp hi with rfl
            omega
        · -- next chain over ((a :: b :: t') ++ [fresh]) ++ [a]
          have htake : ((a :: b :: t') ++ [ll.fresh]).take 1 = [a] := rfl
          refine List.chain'_append.mpr ⟨?_, List.chain'_singleton a, ?_⟩
          · refine List.chain'_append.mpr ⟨?_, List.chain'_singleton ll.fresh, ?_⟩
            · refine chain'_nextRel_congr ll.nodes ns3 (a :: b :: t') ?_
                (List.chain'_append.mp hnc).1
              intro u hu
              have hglnd : gl ∉ (a :: b :: t').dropLast :=
                getLast_not_mem_dropLast (a :: b :: t') hane' hnodup
              have hugl : u ≠ gl := fun hh => hglnd (hh ▸ hu)
              have huf : u ≠ ll.fresh :=
                fun hh => hfresh_not (hh ▸ List.dropLast_subset _ hu)
              exact hl3_next u hugl huf
            · intro x hx y hy
              rw [List.getLast?_eq_getLast _ hane'] at hx
              rcases Option.mem_some_iff.mp hx with rfl
              rcases Option.mem_some_iff.mp hy with rfl
              exact ⟨setNext xgl ll.fresh, hl3gl, rfl⟩
          · intro x hx y hy
            rw [List.getLast?_concat] at hx
            rcases Option.mem_some_iff.mp hx with rfl
            rcases Option.mem_some_iff.mp hy with rfl
            exact ⟨newNode, hl3f, rfl⟩
        · -- prev chain over ((a :: b :: t') ++ [fresh]) ++ [a]
          refine List.chain'_append.mpr ⟨?_, List.chain'_singleton a, ?_⟩
          · refine List.chain'_append.mpr ⟨?_, List.chain'_singleton ll.fresh, ?_⟩
            · refine chain'_prevRel_congr ll.nodes ns3 (a :: b :: t') ?_
                (List.chain'_append.mp hpc).1
              intro w hw
              have hwa : w ≠ a := by
                intro hh
                exact (List.nodup_cons.mp hnodup).1 (hh ▸ hw)
              have hwf : w ≠ ll.fresh := by
                intro hh
                exact hfresh_not (hh ▸ List.mem_cons_of_mem a hw)
              exact hl3_prev w hwa hwf
            · intro x hx y hy
              rw [List.getLast?_eq_getLast _ hane'] at hx
              rcases Option.mem_some_iff.mp hx with rfl
              rcases Option.mem_some_iff.mp hy with rfl
              exact ⟨newNode, hl3f, by rw [hnewdef, hprev_a]⟩
          · intro x hx y hy
            rw [List.getLast?_concat] at hx
            rcases Option.mem_some_iff.mp hx with rfl
            rcases Option.mem_some_iff.mp hy with rfl
            exact ⟨setPrev hn ll.fresh, hl3a, rfl⟩


/-! ### Further association-list and ring-name lemmas -/

theorem eraseA_of_not_mem {κ α : Type} [DecidableEq κ] (l : List (κ × α)) (k : κ)
    (h : k ∉ keysA l) : eraseA l k = l := by
  induction l with
  | nil => rfl
  | cons p t ih =>
      obtain ⟨k₀, v₀⟩ := p
      have hk₀ : k₀ ≠ k := fun hh => h (by simp [keysA, hh])
      have ht : k ∉ keysA t := fun hh => h (by simp [keysA] at hh ⊢; exact Or.inr hh)
      simp only [eraseA, List.filter_cons]
      rw [if_pos (by simpa using hk₀)]
      exact congrArg ((k₀, v₀) :: ·) (ih ht)


theorem keysA_insertA_of_mem {κ α : Type} [DecidableEq κ] (l : List (κ × α)) (k : κ) (v : α)
    (h : k ∈ keysA l) : keysA (insertA l k v) = keysA l := by
  induction l with
  | nil => cases h
  | cons p t ih =>
      obtain ⟨k₀, v₀⟩ := p
      by_cases hk : k₀ = k
      · simp [insertA, keysA, hk]
      · have ht : k ∈ keysA t := by
          rcases List.mem_cons.mp h with hh | hh
          · exact absurd hh.symm hk
          · exact hh
        simp only [insertA, if_neg hk, keysA, List.map_cons]
        exact congrArg (k₀ :: ·) (ih ht)


theorem ringNames_def (ll : LinkedList) : ringNames ll = namesA ll.nodes := rfl


theorem namesA_updateA (l : List (Nat × StoreNode)) (k : Nat) (f : StoreNode → StoreNode)
    (hf : ∀ x, (f x).name = x.name) : namesA (updateA l k f) = namesA l := by
  induction l with
  | nil => rfl
  | cons p t ih =>
      obtain ⟨k₀, v₀⟩ := p
      by_cases hk : k₀ = k
      · simp [updateA, namesA, hk, hf]
      · simp only [updateA, if_neg hk, namesA, List.map_cons]
        exact congrArg (v₀.name :: ·) ih


theorem namesA_insertA_of_not_mem (l : List (Nat × StoreNode)) (k : Nat) (v : StoreNode)
    (h : k ∉ keysA l) : namesA (insertA l k v) = namesA l ++ [v.name] := by
  induction l with
  | nil => rfl
  | cons p t ih =>
      obtain ⟨k₀, v₀⟩ := p
      have hk₀ : k₀ ≠ k := fun hh => h (by simp [keysA, hh])
      have ht : k ∉ keysA t := fun hh => h (by simp [keysA] at hh ⊢; exact Or.inr hh)
      simp only [insertA, if_neg hk₀, namesA, List.map_cons, List.cons_append]
      exact congrArg (v₀.name :: ·) (ih ht)


theorem namesA_eraseA_sublist (l : List (Nat × StoreNode)) (k : Nat) :
    (namesA (eraseA l k)).Sublist (namesA l) := by
  unfold namesA eraseA
  exact List.Sublist.map _ (List.filter_sublist l)


theorem mem_ringNames_iff {ll : LinkedList} (hk : (keysA ll.nodes).Nodup) (nm : String) :
    nm ∈ ringNames ll ↔ ∃ j x, lookupA ll.nodes j = some x ∧ x.name = nm := by
  constructor
  · intro hmem
    rcases List.mem_map.mp hmem with ⟨p, hp, hpn⟩
    exact ⟨p.1, p.2, lookupA_eq_of_mem ll.nodes p.1 p.2 hk hp, hpn⟩
  · intro ⟨j, x, hj, hx⟩
    exact List.mem_map.mpr ⟨(j, x), mem_of_lookupA_eq_some ll.nodes j x hj, hx⟩


theorem ringNames_AddNode {ll : LinkedList} {ids : List Nat} (h : RingShape ll ids)
    (name ip : String) :
    ringNames (ll.AddNode name ip) = ringNames ll ++ [name] := by
  have hfknotkeys : ll.fresh ∉ keysA ll.nodes := by
    intro hh
    exact absurd (h.lt_fresh ll.fresh ((h.mem_iff ll.fresh).mp hh)) (lt_irrefl _)
  rw [ringNames_def, ringNames_def]
  cases hhead : ll.head with
  | none =>
      have hAdd : (ll.AddNode name ip).nodes =
          insertA ll.nodes ll.fresh ⟨name, ip, ll.fresh, ll.fresh⟩ := by
        simp [LinkedList.AddNode, hhead]
      rw [hAdd]
      exact namesA_insertA_of_not_mem ll.nodes ll.fresh _ hfknotkeys
  | some hd =>
      cases hlook : lookupA ll.nodes hd with
      | none =>
          exfalso
          have hmem : hd ∈ ids := by
            cases ids with
            | nil => rw [h.head_eq] at hhead; cases hhead
            | cons a t =>
                have : hd = a := by
                  rw [h.head_eq] at hhead
                  injection hhead with hh
                  exact hh.symm
                rw [this]
                exact List.mem_cons_self a t
          rcases h.lookup_isSome hd hmem with ⟨x, hx⟩
          rw [hlook] at hx
          cases hx
      | some hn =>
          have hAdd : (ll.AddNode name ip).nodes =
              updateA (updateA (insertA ll.nodes ll.fresh ⟨name, ip, hd, hn.prev⟩)
                hn.prev (fun x => setNext x ll.fresh)) hd (fun x => setPrev x ll.fresh) := by
            simp [LinkedList.AddNode, hhead, hlook]
          rw [hAdd, namesA_updateA _ hd (fun x => setPrev x ll.fresh) (fun x => rfl),
            namesA_updateA _ hn.prev (fun x => setNext x ll.fresh) (fun x => rfl),
            namesA_insertA_of_not_mem ll.nodes ll.fresh _ hfknotkeys]


theorem RemoveNode_ok_of_present {ll : LinkedList} {ids : List Nat} (h : RingShape ll ids)
    (name : String) (hyes : ∃ p ∈ ll.nodes, p.2.name = name) :
    ∃ ll', ll.RemoveNode name = .ok ll' := by
  cases ids with
  | nil =>
      exfalso
      rcases hyes with ⟨p, hp, _⟩
      have : p.1 ∈ ([] : List Nat) := (h.mem_iff p.1).mp (by
        simpa [keysA] using List.mem_map_of_mem Prod.fst hp)
      cases this
  | cons a t =>
      have hhead : ll.head = some a := by rw [h.head_eq]; rfl
      rcases hfind : (walkRing ll.nodes a a ll.nodes.length).find?
          (fun p => p.2.name == name) with _ | ⟨c, cn⟩
      · exfalso
        rcases hyes with ⟨p, hp, hpn⟩
        have hw : p ∈ walkRing ll.nodes a a ll.nodes.length := (mem_walk_iff h p).mpr hp
        have := List.find?_eq_none.mp hfind p hw
        simp [hpn] at this
      · exact ⟨removeSplice ll a c cn, by simp [LinkedList.RemoveNode, hhead, hfind]⟩


/-! ### `RemoveNode` preserves the ring shape -/

theorem RingShape_RemoveNode_ok {ll : LinkedList} {ids : List Nat} (h : RingShape ll ids)
    {name : String} {ll' : LinkedList} (hok : ll.RemoveNode name = .ok ll') :
    ∃ c cn ids', lookupA ll.nodes c = some cn ∧ cn.name = name ∧
      RingShape ll' ids' ∧ (∀ j, j ∈ ids' ↔ j ∈ ids ∧ j ≠ c) ∧
      (∀ j, (lookupA ll'.nodes j).map StoreNode.name =
        if j = c then none else (lookupA ll.nodes j).map StoreNode.name) ∧
      (ringNames ll').Sublist (ringNames ll) := by
  cases ids with
  | nil =>
      have hhead : ll.head = none := h.head_eq
      simp only [LinkedList.RemoveNode, hhead] at hok
      cases hok
  | cons a t =>
      have hhead : ll.head = some a := by rw [h.head_eq]; rfl
      obtain ⟨hwmap, hwmem⟩ := walk_of_shape h
      simp only [LinkedList.RemoveNode, hhead] at hok
      rcases hfind : (walkRing ll.nodes a a ll.nodes.length).find?
          (fun p => p.2.name == name) with _ | ⟨c, cn⟩
      · rw [hfind] at hok
        cases hok
      · rw [hfind] at hok
        have hok2 : Except.ok (removeSplice ll a c cn) = Except.ok ll' := hok
        have hsplice : removeSplice ll a c cn = ll' := by
          injection hok2
        have hcnname : cn.name = name := by
          have := List.find?_some hfind
          simpa using this
        have hcwalk : (c, cn) ∈ walkRing ll.nodes a a ll.nodes.length :=
          List.mem_of_find?_eq_some hfind
        have hlookc : lookupA ll.nodes c = some cn := hwmem _ hcwalk
        have hcmem : c ∈ a :: t := by
          rw [← hwmap]
          exact List.mem_map_of_mem Prod.fst hcwalk
        obtain ⟨pre, post, hsplit⟩ := List.append_of_mem hcmem
        have hnodup : (pre ++ c :: post).Nodup := by
          rw [← hsplit]
          exact h.nodup
        have hmid : (c :: (pre ++ post)).Nodup := List.nodup_middle.mp hnodup
        have hcpre : c ∉ pre := fun hm =>
          (List.nodup_cons.mp hmid).1 (List.mem_append.mpr (Or.inl hm))
        have hcpost : c ∉ post := fun hm =>
          (List.nodup_cons.mp hmid).1 (List.mem_append.mpr (Or.inr hm))
        have hppnodup : (pre ++ post).Nodup := (List.nodup_cons.mp hmid).2
        -- the ring successor of the removed node
        have hnchain : List.Chain' (nextRel ll.nodes) (pre ++ (c :: (post ++ [a]))) := by
          have h0 : List.Chain' (nextRel ll.nodes) ((a :: t) ++ [a]) := by
            simpa using h.next_chain
          rw [hsplit] at h0
          simpa using h0
        have hpchain : List.Chain' (prevRel ll.nodes) (pre ++ (c :: (post ++ [a]))) := by
          have h0 : List.Chain' (prevRel ll.nodes) ((a :: t) ++ [a]) := by
            simpa using h.prev_chain
          rw [hsplit] at h0
          simpa using h0
        have hsuccv : cn.next = post.head?.getD a := by
          have hc2 := (List.chain'_append.mp hnchain).2.1
          have hc3 := (List.chain'_cons'.mp hc2).1
          have hy : (post ++ [a]).head? = some (post.head?.getD a) := List.head?_concat
          rcases hc3 _ hy with ⟨x, hx, hxn⟩
          rw [hlookc] at hx
          cases hx
          exact hxn
        by_cases hnc : cn.next = c
        · -- self-linked match: the ring was the single node [c]
          rw [removeSplice, if_pos hnc] at hsplice
          subst hsplice
          have hpostnil : post = [] := by
            rcases post with _ | ⟨q, post₁⟩
            · rfl
            · exfalso
              rw [hsuccv] at hnc
              simp only [List.head?_cons, Option.getD_some] at hnc
              exact hcpost (hnc ▸ List.mem_cons_self q post₁)
          have hca : c = a := by
            rw [hpostnil] at hsuccv
            simp only [List.head?_nil, Option.getD_none] at hsuccv
            rw [hsuccv] at hnc
            exact hnc.symm ▸ rfl
          have hprenil : pre = [] := by
            rcases pre with _ | ⟨p, pre₁⟩
            · rfl
            · exfalso
              have hap : a = p := by
                injection hsplit with hap htl
              exact hcpre (by rw [hca, hap]; exact List.mem_cons_self p pre₁)
          have hids : a :: t = [c] := by
            rw [hsplit, hprenil, hpostnil]
            rfl
          refine ⟨c, cn, [], hlookc, hcnname, ?_, ?_, ?_, ?_⟩
          · refine ⟨rfl, List.nodup_nil, ?_, ?_, ?_, List.chain'_nil, List.chain'_nil⟩
            · show (keysA (eraseA ll.nodes c)).Nodup
              rw [keysA_eraseA]
              exact List.Nodup.filter _ h.keys_nodup
            · intro i
              show i ∈ keysA (eraseA ll.nodes c) ↔ i ∈ []
              rw [keysA_eraseA]
              constructor
              · intro hi
                rcases List.mem_filter.mp hi with ⟨hi1, hi2⟩
                have : i ∈ [c] := by
                  rw [← hids]
                  exact (h.mem_iff i).mp hi1
                rcases List.mem_singleton.mp this with rfl
                simp at hi2
              · intro hi
                cases hi
            · intro i hi
              cases hi
          · intro j
            rw [hids]
            constructor
            · intro hj
              cases hj
            · intro ⟨hj1, hj2⟩
              rcases List.mem_singleton.mp hj1 with rfl
              exact absurd rfl hj2
          · intro j
            show (lookupA (eraseA ll.nodes c) j).map StoreNode.name = _
            by_cases hj : j = c
            · subst hj
              rw [lookupA_eraseA_self, if_pos rfl]
              rfl
            · rw [lookupA_eraseA_ne ll.nodes c j hj, if_neg hj]
          · exact namesA_eraseA_sublist ll.nodes c
        · -- the match has genuine neighbours: splice it out
          rw [removeSplice, if_neg hnc] at hsplice
          subst hsplice
          -- common facts about the spliced heap
          set ns2 : List (Nat × StoreNode) :=
            updateA (updateA ll.nodes cn.prev (fun x => setNext x cn.next)) cn.next
              (fun x => setPrev x cn.prev) with hns2
          have hn2name : ∀ j, (lookupA ns2 j).map StoreNode.name =
              (lookupA ll.nodes j).map StoreNode.name := by
            intro j
            rw [hns2, lookupA_updateA_map_field StoreNode.name _ cn.next
                (fun x => setPrev x cn.prev) (fun x => rfl) j,
              lookupA_updateA_map_field StoreNode.name ll.nodes cn.prev
                (fun x => setNext x cn.next) (fun x => rfl) j]
          have hn2next : ∀ j, j ≠ cn.prev → (lookupA ns2 j).map StoreNode.next =
              (lookupA ll.nodes j).map StoreNode.next := by
            intro j hj
            rw [hns2, lookupA_updateA_map_field StoreNode.next _ cn.next
                (fun x => setPrev x cn.prev) (fun x => rfl) j,
              lookupA_updateA_ne _ cn.prev j _ hj]
          have hn2prev : ∀ j, j ≠ cn.next → (lookupA ns2 j).map StoreNode.prev =
              (lookupA ll.nodes j).map StoreNode.prev := by
            intro j hj
            rw [hns2, lookupA_updateA_ne _ cn.next j _ hj,
              lookupA_updateA_map_field StoreNode.prev ll.nodes cn.prev
                (fun x => setNext x cn.next) (fun x => rfl) j]
          have hpdnext : ∀ xpd, lookupA ll.nodes cn.prev = some xpd →
              (lookupA ns2 cn.prev).map StoreNode.next = some cn.next := by
            intro xpd hxpd
            rw [hns2, lookupA_updateA_map_field StoreNode.next _ cn.next
                (fun x => setPrev x cn.prev) (fun x => rfl) cn.prev,
              lookupA_updateA_self, hxpd]
            rfl
          have hsuccprev : ∀ xs, lookupA ll.nodes cn.next = some xs →
              ∃ y, lookupA ns2 cn.next = some y ∧ y.prev = cn.prev := by
            intro xs hxs
            have hz : ∃ z, lookupA (updateA ll.nodes cn.prev
                (fun x => setNext x cn.next)) cn.next = some z := by
              by_cases hps : cn.next = cn.prev
              · rw [hps, lookupA_updateA_self, ← hps, hxs]
                exact ⟨_, rfl⟩
              · rw [lookupA_updateA_ne _ cn.prev cn.next _ hps, hxs]
                exact ⟨_, rfl⟩
            rcases hz with ⟨z, hz⟩
            rw [hns2, lookupA_updateA_self, hz]
            exact ⟨setPrev z cn.prev, rfl, rfl⟩
          -- erase-level facts
          have hername : ∀ j, (lookupA (eraseA ns2 c) j).map StoreNode.name =
              if j = c then none else (lookupA ll.nodes j).map StoreNode.name := by
            intro j
            by_cases hj : j = c
            · subst hj
              rw [lookupA_eraseA_self, if_pos rfl]
              rfl
            · rw [lookupA_eraseA_ne ns2 c j hj, if_neg hj, hn2name j]
          have hmemids : ∀ j, j ∈ pre ++ post ↔ j ∈ pre ++ c :: post ∧ j ≠ c := by
            intro j
            constructor
            · intro hj
              rcases List.mem_append.mp hj with hj | hj
              · exact ⟨List.mem_append.mpr (Or.inl hj), fun hh => hcpre (hh ▸ hj)⟩
              · exact ⟨List.mem_append.mpr (Or.inr (List.mem_cons_of_mem c hj)),
                  fun hh => hcpost (hh ▸ hj)⟩
            · intro ⟨hj, hjc⟩
              rcases List.mem_append.mp hj with hj | hj
              · exact List.mem_append.mpr (Or.inl hj)
              · rcases List.mem_cons.mp hj with hj | hj
                · exact absurd hj hjc
                · exact List.mem_append.mpr (Or.inr hj)
          have hkeyser : ∀ j, j ∈ keysA (eraseA ns2 c) ↔ j ∈ pre ++ post := by
            intro j
            rw [keysA_eraseA]
            constructor
            · intro hj
              rcases List.mem_filter.mp hj with ⟨hj1, hj2⟩
              have hj1' : j ∈ keysA ll.nodes := by
                have : keysA ns2 = keysA ll.nodes := by
                  rw [hns2, keysA_updateA, keysA_updateA]
                rwa [this] at hj1
              have hjc : j ≠ c := by
                intro hh
                subst hh
                simp at hj2
              refine (hmemids j).mpr ⟨?_, hjc⟩
              rw [← hsplit]
              exact (h.mem_iff j).mp hj1'
            · intro hj
              rcases (hmemids j).mp hj with ⟨hj1, hjc⟩
              refine List.mem_filter.mpr ⟨?_, by simpa using hjc⟩
              have : keysA ns2 = keysA ll.nodes := by
                rw [hns2, keysA_updateA, keysA_updateA]
              rw [this]
              refine (h.mem_iff j).mpr ?_
              rw [hsplit]
              exact hj1
          have hkeys2 : keysA ns2 = keysA ll.nodes := by
            rw [hns2, keysA_updateA, keysA_updateA]
          have hkeysnodupE : (keysA (eraseA ns2 c)).Nodup := by
            rw [keysA_eraseA, hkeys2]
            exact List.Nodup.filter _ h.keys_nodup
          have hltfreshE : ∀ i ∈ pre ++ post, i < ll.fresh := by
            intro i hi
            refine h.lt_fresh i ?_
            rw [hsplit]
            exact ((hmemids i).mp hi).1
          have hmemconcl : ∀ j, j ∈ pre ++ post ↔ j ∈ a :: t ∧ j ≠ c := by
            intro j
            rw [hsplit]
            exact hmemids j
          have hnames2 : namesA ns2 = namesA ll.nodes := by
            rw [hns2, namesA_updateA _ cn.next (fun x => setPrev x cn.prev) (fun x => rfl),
              namesA_updateA _ cn.prev (fun x => setNext x cn.next) (fun x => rfl)]
          have hsubE : (namesA (eraseA ns2 c)).Sublist (namesA ll.nodes) := by
            rw [← hnames2]
            exact namesA_eraseA_sublist ns2 c
          rcases pre with _ | ⟨p, pre₁⟩
          · -- the removed node was Head itself
            have hsplit' : a :: t = c :: post := by simpa using hsplit
            have hca : a = c := by injection hsplit' with h1 h2
            subst hca
            rcases post with _ | ⟨q, post₁⟩
            · exact absurd (by simpa using hsuccv) hnc
            · have hsq : cn.next = q := by simpa using hsuccv
              have hpostne : (q :: post₁) ≠ [] := List.cons_ne_nil _ _
              have hidsnodup : (a :: q :: post₁).Nodup := by simpa using hnodup
              have hanotpost : a ∉ q :: post₁ := (List.nodup_cons.mp hidsnodup).1
              have hpostnodup : (q :: post₁).Nodup := (List.nodup_cons.mp hidsnodup).2
              have hqa : q ≠ a := fun hh => hanotpost (hh ▸ List.mem_cons_self q post₁)
              have hp2 : List.Chain' (prevRel ll.nodes) ((a :: q :: post₁) ++ [a]) := by
                simpa using hpchain
              have hpd : cn.prev = (q :: post₁).getLast hpostne := by
                have hj := (List.chain'_append.mp hp2).2.2
                have hS : prevRel ll.nodes
                    ((a :: q :: post₁).getLast (List.cons_ne_nil _ _)) a := by
                  refine hj _ ?_ a rfl
                  rw [List.getLast?_eq_getLast _ (List.cons_ne_nil _ _)]
                  rfl
                rcases hS with ⟨x, hx, hxp⟩
                rw [hlookc] at hx
                cases hx
                rw [hxp]
                exact List.getLast_cons hpostne
              have hpdmem : cn.prev ∈ q :: post₁ := by
                rw [hpd]
                exact List.getLast_mem hpostne
              have hpdne_a : cn.prev ≠ a := fun hh => hanotpost (hh ▸ hpdmem)
              obtain ⟨xpd, hxpd⟩ := h.lookup_isSome cn.prev (by
                rw [hsplit]
                exact List.mem_cons_of_mem a hpdmem)
              obtain ⟨xs, hxs⟩ := h.lookup_isSome cn.next (by
                rw [hsplit, hsq]
                exact List.mem_cons_of_mem a (List.mem_cons_self q post₁))
              have hch_next_post : List.Chain' (nextRel (eraseA ns2 a)) (q :: post₁) := by
                refine chain'_nextRel_congr ll.nodes _ (q :: post₁) ?_ ?_
                · intro u hu
                  have hua : u ≠ a := fun hh => hanotpost (hh ▸ List.dropLast_subset _ hu)
                  have hupd : u ≠ cn.prev := by
                    intro hh
                    rw [hpd] at hh
                    exact getLast_not_mem_dropLast _ hpostne hpostnodup (hh ▸ hu)
                  rw [lookupA_eraseA_ne ns2 a u hua, hn2next u hupd]
                · have h0 : List.Chain' (nextRel ll.nodes) (a :: ((q :: post₁) ++ [a])) := by
                    simpa using hnchain
                  exact (List.chain'_append.mp h0.tail).1
              have hch_prev_post : List.Chain' (prevRel (eraseA ns2 a)) (q :: post₁) := by
                refine chain'_prevRel_congr ll.nodes _ (q :: post₁) ?_ ?_
                · intro w hw
                  have hwa : w ≠ a := fun hh => hanotpost (hh ▸ List.mem_cons_of_mem q hw)
                  have hwq : w ≠ cn.next := by
                    rw [hsq]
                    intro hh
                    exact (List.nodup_cons.mp hpostnodup).1 (hh ▸ hw)
                  rw [lookupA_eraseA_ne ns2 a w hwa, hn2prev w hwq]
                · have h0 : List.Chain' (prevRel ll.nodes) (a :: ((q :: post₁) ++ [a])) := by
                    simpa using hpchain
                  exact (List.chain'_append.mp h0.tail).1
              refine ⟨a, cn, [] ++ (q :: post₁), hlookc, hcnname,
                ⟨?_, hppnodup, hkeysnodupE, hkeyser, hltfreshE, ?_, ?_⟩,
                hmemconcl, hername, hsubE⟩
              · show some (if a = a then cn.next else a) = some q
                rw [if_pos rfl, hsq]
              · show List.Chain' (nextRel (eraseA ns2 a)) ((q :: post₁) ++ [q])
                refine List.chain'_append.mpr ⟨hch_next_post, List.chain'_singleton q, ?_⟩
                intro x hx y hy
                rw [List.getLast?_eq_getLast _ hpostne] at hx
                rcases Option.mem_some_iff.mp hx with rfl
                rcases Option.mem_some_iff.mp hy with rfl
                have hmapn : (lookupA (eraseA ns2 a)
                    ((q :: post₁).getLast hpostne)).map StoreNode.next = some q := by
                  rw [← hpd, lookupA_eraseA_ne ns2 a _ hpdne_a, hpdnext xpd hxpd, hsq]
                rcases Option.map_eq_some'.mp hmapn with ⟨y, hy2, hy3⟩
                exact ⟨y, hy2, hy3⟩
              · show List.Chain' (prevRel (eraseA ns2 a)) ((q :: post₁) ++ [q])
                refine List.chain'_append.mpr ⟨hch_prev_post, List.chain'_singleton q, ?_⟩
                intro x hx y hy
                rw [List.getLast?_eq_getLast _ hpostne] at hx
                rcases Option.mem_some_iff.mp hx with rfl
                rcases Option.mem_some_iff.mp hy with rfl
                obtain ⟨y2, hy2, hy3⟩ := hsuccprev xs hxs
                refine ⟨y2, ?_, ?_⟩
                · rw [← hsq, lookupA_eraseA_ne ns2 a _ (by rw [hsq]; exact hqa)]
                  exact hy2
                · rw [hy3, hpd]
          · -- the removed node had Head strictly before it in the scan
            have hsplit' : a :: t = p :: (pre₁ ++ c :: post) := by simpa using hsplit
            have hap : a = p := by injection hsplit' with h1 h2
            subst hap
            have hca : c ≠ a := fun hh =>
              hcpre (by rw [hh]; exact List.mem_cons_self a pre₁)
            have hprene : (a :: pre₁) ≠ [] := List.cons_ne_nil _ _
            have hpd : cn.prev = (a :: pre₁).getLast hprene := by
              have hj := (List.chain'_append.mp hpchain).2.2
              have hS : prevRel ll.nodes ((a :: pre₁).getLast hprene) c := by
                refine hj _ ?_ c rfl
                rw [List.getLast?_eq_getLast _ hprene]
                rfl
              rcases hS with ⟨x, hx, hxp⟩
              rw [hlookc] at hx
              cases hx
              exact hxp
            have hpdmem : cn.prev ∈ a :: pre₁ := by
              rw [hpd]
              exact List.getLast_mem hprene
            have hpdc : cn.prev ≠ c := fun hh => hcpre (hh ▸ hpdmem)
            obtain ⟨xpd, hxpd⟩ := h.lookup_isSome cn.prev (by
              rw [hsplit]
              exact List.mem_append.mpr (Or.inl hpdmem))
            have hprenodup : (a :: pre₁).Nodup := (List.nodup_append.mp hppnodup).1
            have hpostnodup2 : post.Nodup := (List.nodup_append.mp hppnodup).2.1
            have hdisj : List.Disjoint (a :: pre₁) post := (List.nodup_append.mp hppnodup).2.2
            have hanotpost : a ∉ post := fun hh => hdisj (List.mem_cons_self a pre₁) hh
            have hsuccmem : cn.next ∈ (a :: pre₁) ++ c :: post := by
              rcases post with _ | ⟨q, post₁⟩
              · rw [hsuccv]
                simp
              · rw [hsuccv]
                simp
            obtain ⟨xs, hxs⟩ := h.lookup_isSome cn.next (by rw [hsplit]; exact hsuccmem)
            have hcnotpa : c ∉ post ++ [a] := by
              intro hh
              rcases List.mem_append.mp hh with hh | hh
              · exact hcpost hh
              · exact hca (List.mem_singleton.mp hh)
            have hsucchead : (post ++ [a]).head? = some cn.next := by
              rw [List.head?_concat, hsuccv]
            have hpanodup : (post ++ [a]).Nodup := by
              rw [List.nodup_append]
              refine ⟨hpostnodup2, by simp, ?_⟩
              intro x hx hy
              rcases List.mem_singleton.mp hy with rfl
              exact hanotpost hx
            have hsuccnotpre1 : cn.next ∉ pre₁ := by
              intro hh
              rcases post with _ | ⟨q, post₁⟩
              · rw [hsuccv] at hh
                simp only [List.head?_nil, Option.getD_none] at hh
                exact (List.nodup_cons.mp hprenodup).1 hh
              · rw [hsuccv] at hh
                simp only [List.head?_cons, Option.getD_some] at hh
                exact hdisj (List.mem_cons_of_mem a hh) (List.mem_cons_self q post₁)
            have hsuccnotail : cn.next ∉ (post ++ [a]).tail := by
              rcases hpa : post ++ [a] with _ | ⟨z, zs⟩
              · simp
              · rw [hpa] at hsucchead hpanodup
                have hz : z = cn.next := Option.some.inj hsucchead
                subst hz
                exact (List.nodup_cons.mp hpanodup).1
            have hch_next_pre : List.Chain' (nextRel (eraseA ns2 c)) (a :: pre₁) := by
              refine chain'_nextRel_congr ll.nodes _ (a :: pre₁) ?_
                (List.chain'_append.mp hnchain).1
              intro u hu
              have huc : u ≠ c := fun hh => hcpre (hh ▸ List.dropLast_subset _ hu)
              have hupd : u ≠ cn.prev := by
                intro hh
                rw [hpd] at hh
                exact getLast_not_mem_dropLast _ hprene hprenodup (hh ▸ hu)
              rw [lookupA_eraseA_ne ns2 c u huc, hn2next u hupd]
            have hch_next_pa : List.Chain' (nextRel (eraseA ns2 c)) (post ++ [a]) := by
              refine chain'_nextRel_congr ll.nodes _ (post ++ [a]) ?_
                ((List.chain'_append.mp hnchain).2.1).tail
              intro u hu
              rw [List.dropLast_concat] at hu
              have huc : u ≠ c := fun hh => hcpost (hh ▸ hu)
              have hupd : u ≠ cn.prev := by
                intro hh
                exact hdisj (hh ▸ hpdmem) hu
              rw [lookupA_eraseA_ne ns2 c u huc, hn2next u hupd]
            have hch_prev_pre : List.Chain' (prevRel (eraseA ns2 c)) (a :: pre₁) := by
              refine chain'_prevRel_congr ll.nodes _ (a :: pre₁) ?_
                (List.chain'_append.mp hpchain).1
              intro w hw
              have hwc : w ≠ c := fun hh => hcpre (hh ▸ List.mem_cons_of_mem a hw)
              have hws : w ≠ cn.next := fun hh => hsuccnotpre1 (hh ▸ hw)
              rw [lookupA_eraseA_ne ns2 c w hwc, hn2prev w hws]
            have hch_prev_pa : List.Chain' (prevRel (eraseA ns2 c)) (post ++ [a]) := by
              refine chain'_prevRel_congr ll.nodes _ (post ++ [a]) ?_
                ((List.chain'_append.mp hpchain).2.1).tail
              intro w hw
              have hwc : w ≠ c := fun hh =>
                hcnotpa (hh ▸ List.mem_of_mem_tail hw)
              have hws : w ≠ cn.next := fun hh => hsuccnotail (hh ▸ hw)
              rw [lookupA_eraseA_ne ns2 c w hwc, hn2prev w hws]
            refine ⟨c, cn, (a :: pre₁) ++ post, hlookc, hcnname,
              ⟨?_, hppnodup, hkeysnodupE, hkeyser, hltfreshE, ?_, ?_⟩,
              hmemconcl, hername, hsubE⟩
            · show some (if c = a then cn.next else a) = ((a :: pre₁) ++ post).head?
              rw [if_neg hca]
              rfl
            · show List.Chain' (nextRel (eraseA ns2 c)) (((a :: pre₁) ++ post) ++ [a])
              rw [List.append_assoc]
              refine List.chain'_append.mpr ⟨hch_next_pre, hch_next_pa, ?_⟩
              intro x hx y hy
              rw [List.getLast?_eq_getLast _ hprene] at hx
              rcases Option.mem_some_iff.mp hx with rfl
              rw [hsucchead] at hy
              rcases Option.mem_some_iff.mp hy with rfl
              have hmapn : (lookupA (eraseA ns2 c)
                  ((a :: pre₁).getLast hprene)).map StoreNode.next = some cn.next := by
                rw [← hpd, lookupA_eraseA_ne ns2 c _ hpdc, hpdnext xpd hxpd]
              rcases Option.map_eq_some'.mp hmapn with ⟨y, hy2, hy3⟩
              exact ⟨y, hy2, hy3⟩
            · show List.Chain' (prevRel (eraseA ns2 c)) (((a :: pre₁) ++ post) ++ [a])
              rw [List.append_assoc]
              refine List.chain'_append.mpr ⟨hch_prev_pre, hch_prev_pa, ?_⟩
              intro x hx y hy
              rw [List.getLast?_eq_getLast _ hprene] at hx
              rcases Option.mem_some_iff.mp hx with rfl
              rw [hsucchead] at hy
              rcases Option.mem_some_iff.mp hy with rfl
              obtain ⟨y2, hy2, hy3⟩ := hsuccprev xs hxs
              refine ⟨y2, ?_, ?_⟩
              · rw [lookupA_eraseA_ne ns2 c _ hnc]
                exact hy2
              · rw [hy3, hpd]


/-! ### The C2 invariant follows from the ring shape -/

theorem ringInv_of_shape {ll : LinkedList} {ids : List Nat} (h : RingShape ll ids) :
    ringInv ll := by
  cases ids with
  | nil =>
      have hkeys : keysA ll.nodes = [] := by
        rcases hk : keysA ll.nodes with _ | ⟨i, r⟩
        · rfl
        · exact absurd ((h.mem_iff i).mp (by rw [hk]; exact List.mem_cons_self _ _))
            (List.not_mem_nil i)
      have hnodes : ll.nodes = [] := by
        rcases hn : ll.nodes with _ | ⟨p, r⟩
        · rfl
        · rw [hn] at hkeys
          cases hkeys
      refine ⟨?_, ?_, ?_, ?_⟩
      · intro p hp
        rw [hnodes] at hp
        cases hp
      · intro p hp
        rw [hnodes] at hp
        cases hp
      · rw [hnodes, h.head_eq]
        simp
      · intro p hp
        rw [hnodes] at hp
        cases hp
  | cons a t =>
      have hhead : ll.head = some a := by rw [h.head_eq]; rfl
      have hnc : List.Chain' (nextRel ll.nodes) ((a :: t) ++ [a]) := by
        simpa using h.next_chain
      have hpc : List.Chain' (prevRel ll.nodes) ((a :: t) ++ [a]) := by
        simpa using h.prev_chain
      have hlookup_mem : ∀ p ∈ ll.nodes, lookupA ll.nodes p.1 = some p.2 := by
        intro p hp
        exact lookupA_eq_of_mem ll.nodes p.1 p.2 h.keys_nodup hp
      have hmemids : ∀ p ∈ ll.nodes, p.1 ∈ a :: t := by
        intro p hp
        exact (h.mem_iff p.1).mp (by
          simpa [keysA] using List.mem_map_of_mem Prod.fst hp)
      have hR := List.chain'_iff_get.mp hnc
      have hS := List.chain'_iff_get.mp hpc
      have hLlen : ((a :: t) ++ [a]).length = t.length + 2 := by simp
      refine ⟨?_, ?_, ?_, ?_⟩
      · -- every node's next points back via prev
        intro p hp
        obtain ⟨⟨k, hk⟩, hget⟩ := List.mem_iff_get.mp (hmemids p hp)
        have hk1 : k < ((a :: t) ++ [a]).length - 1 := by
          simp only [List.length_cons] at hk
          omega
        have hRk := hR k hk1
        have hSk := hS k hk1
        have hgetk : ((a :: t) ++ [a]).get ⟨k, by omega⟩ = p.1 := by
          rw [List.get_append k hk]
          exact hget
        rw [hgetk] at hRk hSk
        rcases hRk with ⟨x, hx, hxn⟩
        rcases hSk with ⟨y, hy, hyp⟩
        rw [hlookup_mem p hp] at hx
        cases hx
        rw [hxn, hy]
        simp [hyp]
      · -- every node's prev points forward via next
        intro p hp
        obtain ⟨⟨k, hk⟩, hget⟩ := List.mem_iff_get.mp (hmemids p hp)
        rcases k with _ | k'
        · -- Head: its predecessor is the last ring element
          have hk1 : t.length < ((a :: t) ++ [a]).length - 1 := by
            simp
          have hRk := hR t.length hk1
          have hSk := hS t.length hk1
          have hgetlast : ((a :: t) ++ [a]).get ⟨t.length + 1, by simp⟩ = p.1 := by
            rw [List.get_append_right (a :: t) [a] (by simp)]
            simpa using hget
            simp
          rw [hgetlast] at hRk hSk
          rcases hRk with ⟨y, hy, hyn⟩
          rcases hSk with ⟨x, hx, hxp⟩
          rw [hlookup_mem p hp] at hx
          cases hx
          rw [hxp, hy]
          simp [hyn]
        · -- an interior element: its predecessor is the previous one
          have hk1 : k' < ((a :: t) ++ [a]).length - 1 := by
            simp only [List.length_append, List.length_cons, List.length_nil] at hk ⊢
            omega
          have hRk := hR k' hk1
          have hSk := hS k' hk1
          have hgeti : ((a :: t) ++ [a]).get ⟨k' + 1, by
              simp only [List.length_append, List.length_cons, List.length_nil]
              omega⟩ = p.1 := by
            rw [List.get_append (k' + 1) hk]
            exact hget
          rw [hgeti] at hRk hSk
          rcases hRk with ⟨y, hy, hyn⟩
          rcases hSk with ⟨x, hx, hxp⟩
          rw [hlookup_mem p hp] at hx
          cases hx
          rw [hxp, hy]
          simp [hyn]
      · constructor
        · intro hh
          rw [hhead] at hh
          cases hh
        · intro hh
          have : a ∈ keysA ll.nodes := (h.mem_iff a).mpr (List.mem_cons_self a t)
          rw [hh] at this
          cases this
      · intro p hp hlen
        have hlen1 : (a :: t).length = 1 := by
          rw [← h.length_nodes]
          exact hlen
        have ht : t = [] := by
          simp only [List.length_cons, Nat.add_eq_one_iff] at hlen1
          exact List.length_eq_zero.mp (by omega)
        subst ht
        have hpa : p.1 = a := by
          rcases List.mem_singleton.mp (hmemids p hp) with hh
          exact hh
        have hRk := List.chain'_pair.mp (by simpa using hnc)
        have hSk := List.chain'_pair.mp (by simpa using hpc)
        rcases hRk with ⟨x, hx, hxn⟩
        rcases hSk with ⟨y, hy, hyp⟩
        rw [← hpa] at hx hy
        rw [hlookup_mem p hp] at hx hy
        cases hx
        cases hy
        exact ⟨by rw [hxn, hpa], by rw [hyp, hpa]⟩


/-! ### Reachable rings are well-shaped; the C2 claim -/

theorem ringShape_empty : RingShape LinkedList.empty [] := by
  refine ⟨rfl, List.nodup_nil, List.nodup_nil, ?_, ?_, List.chain'_nil, List.chain'_nil⟩
  · intro i
    simp [keysA, LinkedList.empty]
  · intro i hi
    cases hi


theorem ringShape_of_reachable {ll : LinkedList} (h : RingReachable ll) :
    ∃ ids, RingShape ll ids := by
  induction h with
  | empty => exact ⟨[], ringShape_empty⟩
  | add ll name ip _ ih =>
      rcases ih with ⟨ids, hs⟩
      exact ⟨ids ++ [ll.fresh], RingShape_AddNode hs name ip⟩
  | remove ll ll' name _ hok ih =>
      rcases ih with ⟨ids, hs⟩
      rcases RingShape_RemoveNode_ok hs hok with ⟨c, cn, ids', _, _, hshape, _, _, _⟩
      exact ⟨ids', hshape⟩


/-- C2: for every ring reachable from the empty ring by any sequence of
`AddNode` and `RemoveNode` calls, every live node `X` satisfies
`X.Next.Prev == X` and `X.Prev.Next == X`, `Head` is nil exactly when
the ring is empty, and a one-node ring is self-linked. -/
theorem ring_structural_invariant (ll : LinkedList) (h : RingReachable ll) : ringInv ll := by
  rcases ringShape_of_reachable h with ⟨ids, hs⟩
  exact ringInv_of_shape hs


/-- C2 (witness): the invariant holds for the concrete two-node ring
built by registering "alpha" then "beta". -/
theorem ring_structural_invariant_witness :
    ringInv ((LinkedList.empty.AddNode "alpha" "10.0.0.1:7001").AddNode
      "beta" "10.0.0.2:7002") :=
  ring_structural_invariant _
    (RingReachable.add _ "beta" "10.0.0.2:7002"
      (RingReachable.add _ "alpha" "10.0.0.1:7001" RingReachable.empty))


/-- When no live node carries the requested name, `RemoveNode` reports
an error (and hence the broker's callers leave the ring unchanged). -/
theorem RemoveNode_error_of_absent {ll : LinkedList} {ids : List Nat} (h : RingShape ll ids)
    (name : String) (hno : ∀ p ∈ ll.nodes, p.2.name ≠ name) :
    ∃ e, ll.RemoveNode name = .error e := by
  cases ids with
  | nil =>
      have hhead : ll.head = none := h.head_eq
      exact ⟨"list is empty", by simp [LinkedList.RemoveNode, hhead]⟩
  | cons a t =>
      have hhead : ll.head = some a := by rw [h.head_eq]; rfl
      rcases hfind : (walkRing ll.nodes a a ll.nodes.length).find?
          (fun p => p.2.name == name) with _ | ⟨c, cn⟩
      · exact ⟨"node with name " ++ name ++ " not found",
          by simp [LinkedList.RemoveNode, hhead, hfind]⟩
      · exfalso
        have hmem : (c, cn) ∈ ll.nodes :=
          (mem_walk_iff h (c, cn)).mp (List.mem_of_find?_eq_some hfind)
        have : cn.name = name := by
          have := List.find?_some hfind
          simpa using this
        exact hno (c, cn) hmem this


/-! ### The broker bookkeeping invariant is preserved by every operation -/

theorem mem_keysA_eraseA {κ α : Type} [DecidableEq κ] (l : List (κ × α)) (k j : κ) :
    j ∈ keysA (eraseA l k) ↔ j ∈ keysA l ∧ j ≠ k := by
  rw [keysA_eraseA]
  constructor
  · intro hj
    rcases List.mem_filter.mp hj with ⟨h1, h2⟩
    exact ⟨h1, by simpa using h2⟩
  · intro ⟨h1, h2⟩
    exact List.mem_filter.mpr ⟨h1, by simpa using h2⟩


theorem BrokerInv_init : BrokerInv NewBroker := by
  refine ⟨List.nodup_nil, List.nodup_nil, ⟨[], ringShape_empty⟩, List.nodup_nil, ?_, ?_⟩
  · intro n
    exact Iff.rfl
  · intro n
    exact Iff.rfl


theorem BrokerInv_evict {b : Broker} (h : BrokerInv b) (name : String) :
    BrokerInv (b.evict name) := by
  rcases h.shape with ⟨ids, hs⟩
  by_cases hmem : name ∈ keysA b.stores
  · -- present everywhere: all three structures drop exactly this name
    have hring : name ∈ ringNames b.peerlist := (h.store_ring name).mp hmem
    rcases (mem_ringNames_iff hs.keys_nodup name).mp hring with ⟨j0, x0, hj0, hx0⟩
    rcases RemoveNode_ok_of_present hs name
        ⟨(j0, x0), mem_of_lookupA_eq_some _ j0 x0 hj0, hx0⟩ with ⟨ll', hok⟩
    rcases RingShape_RemoveNode_ok hs hok with
      ⟨c, cn, ids', hlookc, hcn, hshape', hmemids', hname', hsub'⟩
    have hev : b.evict name =
        { stores := eraseA b.stores name, loads := eraseA b.loads name, peerlist := ll' } := by
      simp [Broker.evict, hok]
    have hnames' : ∀ nm, nm ∈ ringNames ll' ↔ nm ∈ ringNames b.peerlist ∧ nm ≠ name := by
      intro nm
      constructor
      · intro hnm
        rcases (mem_ringNames_iff hshape'.keys_nodup nm).mp hnm with ⟨j, x, hj, hx⟩
        have hjc : j ≠ c := by
          intro hh
          subst hh
          have := hname' j
          rw [if_pos rfl, hj] at this
          cases this
        have hl : (lookupA b.peerlist.nodes j).map StoreNode.name = some nm := by
          have := hname' j
          rw [if_neg hjc, hj] at this
          simpa [hx] using this.symm
        rcases Option.map_eq_some'.mp hl with ⟨x', hx', hxn'⟩
        constructor
        · exact (mem_ringNames_iff hs.keys_nodup nm).mpr ⟨j, x', hx', hxn'⟩
        · intro hh
          subst hh
          have hpair : ((j, x') : Nat × StoreNode) ∈ b.peerlist.nodes :=
            mem_of_lookupA_eq_some _ j x' hx'
          have hcpair : ((c, cn) : Nat × StoreNode) ∈ b.peerlist.nodes :=
            mem_of_lookupA_eq_some _ c cn hlookc
          have := List.inj_on_of_nodup_map h.names_nodup hpair hcpair (by
            show x'.name = cn.name
            rw [hxn', hcn])
          exact hjc (congrArg Prod.fst this)
      · intro ⟨hnm, hne⟩
        rcases (mem_ringNames_iff hs.keys_nodup nm).mp hnm with ⟨j, x, hj, hx⟩
        have hjc : j ≠ c := by
          intro hh
          subst hh
          rw [hlookc] at hj
          cases hj
          exact hne (hx ▸ hcn ▸ rfl)
        have hl : (lookupA ll'.nodes j).map StoreNode.name = some nm := by
          have := hname' j
          rw [if_neg hjc, hj] at this
          simpa [hx] using this
        rcases Option.map_eq_some'.mp hl with ⟨x', hx', hxn'⟩
        exact (mem_ringNames_iff hshape'.keys_nodup nm).mpr ⟨j, x', hx', hxn'⟩
    rw [hev]
    refine ⟨?_, ?_, ⟨ids', hshape'⟩, ?_, ?_, ?_⟩
    · show (keysA (eraseA b.stores name)).Nodup
      rw [keysA_eraseA]
      exact List.Nodup.filter _ h.stores_nodup
    · show (keysA (eraseA b.loads name)).Nodup
      rw [keysA_eraseA]
      exact List.Nodup.filter _ h.loads_nodup
    · exact hsub'.nodup h.names_nodup
    · intro n
      rw [mem_keysA_eraseA, mem_keysA_eraseA]
      constructor
      · intro ⟨h1, h2⟩
        exact ⟨(h.store_load n).mp h1, h2⟩
      · intro ⟨h1, h2⟩
        exact ⟨(h.store_load n).mpr h1, h2⟩
    · intro n
      rw [mem_keysA_eraseA]
      constructor
      · intro ⟨h1, h2⟩
        exact (hnames' n).mpr ⟨(h.store_ring n).mp h1, h2⟩
      · intro hn
        rcases (hnames' n).mp hn with ⟨h1, h2⟩
        exact ⟨(h.store_ring n).mpr h1, h2⟩
  · -- absent everywhere: the eviction is a no-op
    have hload : name ∉ keysA b.loads := fun hh => hmem ((h.store_load name).mpr hh)
    have hringn : name ∉ ringNames b.peerlist := fun hh => hmem ((h.store_ring name).mpr hh)
    have hno : ∀ p ∈ b.peerlist.nodes, p.2.name ≠ name := by
      intro p hp hh
      exact hringn (hh ▸ List.mem_map_of_mem (fun q => q.2.name) hp)
    rcases RemoveNode_error_of_absent hs name hno with ⟨e, he⟩
    have : b.evict name = b := by
      simp [Broker.evict, he, eraseA_of_not_mem b.stores name hmem,
        eraseA_of_not_mem b.loads name hload]
    rwa [this]


theorem BrokerInv_CreateStore {b : Broker} (h : BrokerInv b) (name ip : String) :
    BrokerInv (b.CreateStore name ip).2 := by
  rcases h.shape with ⟨ids, hs⟩
  by_cases hdup : (lookupA b.stores name).isSome
  · simpa [Broker.CreateStore, hdup] using h
  · by_cases hip : ip = ""
    · simpa [Broker.CreateStore, hdup, hip] using h
    · have hnot : name ∉ keysA b.stores := by
        intro hh
        exact hdup ((lookupA_isSome_iff_mem_keysA b.stores name).mpr hh)
      have hnotl : name ∉ keysA b.loads := fun hh => hnot ((h.store_load name).mpr hh)
      have hnotr : name ∉ ringNames b.peerlist := fun hh => hnot ((h.store_ring name).mpr hh)
      have hC : (b.CreateStore name ip).2 =
          { stores := insertA b.stores name
              { data := none, name := name, ipAddress := ip, peerIP := "" },
            loads := insertA b.loads name 0,
            peerlist := b.peerlist.AddNode name ip } := by
        simp [Broker.CreateStore, hdup, hip]
      rw [hC]
      have hkS : keysA (insertA b.stores name
          { data := none, name := name, ipAddress := ip, peerIP := "" }) =
          keysA b.stores ++ [name] := keysA_insertA_of_not_mem _ _ _ hnot
      have hkL : keysA (insertA b.loads name 0) = keysA b.loads ++ [name] :=
        keysA_insertA_of_not_mem _ _ _ hnotl
      have hkR : ringNames (b.peerlist.AddNode name ip) = ringNames b.peerlist ++ [name] :=
        ringNames_AddNode hs name ip
      refine ⟨?_, ?_, ⟨ids ++ [b.peerlist.fresh], RingShape_AddNode hs name ip⟩, ?_, ?_, ?_⟩
      · rw [hkS, List.nodup_append]
        exact ⟨h.stores_nodup, by simp, by
          intro x hx hy
          rcases List.mem_singleton.mp hy with rfl
          exact hnot hx⟩
      · rw [hkL, List.nodup_append]
        exact ⟨h.loads_nodup, by simp, by
          intro x hx hy
          rcases List.mem_singleton.mp hy with rfl
          exact hnotl hx⟩
      · rw [hkR, List.nodup_append]
        exact ⟨h.names_nodup, by simp, by
          intro x hx hy
          rcases List.mem_singleton.mp hy with rfl
          exact hnotr hx⟩
      · intro n
        rw [hkS, hkL, List.mem_append, List.mem_append]
        constructor
        · intro hn
          rcases hn with hn | hn
          · exact Or.inl ((h.store_load n).mp hn)
          · exact Or.inr hn
        · intro hn
          rcases hn with hn | hn
          · exact Or.inl ((h.store_load n).mpr hn)
          · exact Or.inr hn
      · intro n
        rw [hkS, hkR, List.mem_append, List.mem_append]
        constructor
        · intro hn
          rcases hn with hn | hn
          · exact Or.inl ((h.store_ring n).mp hn)
          · exact Or.inr hn
        · intro hn
          rcases hn with hn | hn
          · exact Or.inl ((h.store_ring n).mpr hn)
          · exact Or.inr hn


theorem BrokerInv_RemoveStore {b : Broker} (h : BrokerInv b) (name : String) :
    BrokerInv (b.RemoveStore name).2 := by
  by_cases hex : (lookupA b.stores name).isSome
  · have : (b.RemoveStore name).2 = b.evict name := by
      simp [Broker.RemoveStore, hex]
    rw [this]
    exact BrokerInv_evict h name
  · simpa [Broker.RemoveStore, hex] using h


theorem IncrementLoad_stores (b : Broker) (name : String) :
    (b.IncrementLoad name).stores = b.stores := by
  unfold Broker.IncrementLoad
  cases lookupA b.loads name <;> rfl


theorem IncrementLoad_peerlist (b : Broker) (name : String) :
    (b.IncrementLoad name).peerlist = b.peerlist := by
  unfold Broker.IncrementLoad
  cases lookupA b.loads name <;> rfl


theorem IncrementLoad_keys (b : Broker) (name : String) :
    keysA (b.IncrementLoad name).loads = keysA b.loads := by
  unfold Broker.IncrementLoad
  cases hl : lookupA b.loads name with
  | none => rfl
  | some v =>
      show keysA (insertA b.loads name (goInc v)) = keysA b.loads
      exact keysA_insertA_of_mem b.loads name _
        ((lookupA_isSome_iff_mem_keysA b.loads name).mp (by simp [hl]))


theorem BrokerInv_IncrementLoad {b : Broker} (h : BrokerInv b) (name : String) :
    BrokerInv (b.IncrementLoad name) := by
  refine ⟨?_, ?_, ?_, ?_, ?_, ?_⟩
  · rw [IncrementLoad_stores]
    exact h.stores_nodup
  · rw [IncrementLoad_keys]
    exact h.loads_nodup
  · rw [IncrementLoad_peerlist]
    exact h.shape
  · rw [IncrementLoad_peerlist]
    exact h.names_nodup
  · intro n
    rw [IncrementLoad_stores, IncrementLoad_keys]
    exact h.store_load n
  · intro n
    rw [IncrementLoad_stores, IncrementLoad_peerlist]
    exact h.store_ring n


theorem BrokerInv_SetKey {b : Broker} (h : BrokerInv b) (net : Net) (key value : String) :
    BrokerInv (b.SetKey net key value).broker := by
  rcases hg : b.GetLeastLoadedStore with e | o
  · simpa [Broker.SetKey, hg] using h
  · rcases o with _ | store
    · simpa [Broker.SetKey, hg] using h
    · rcases hn : net.setKV store.ipAddress key value with _ | _ | _
      · simpa [Broker.SetKey, hg, hn] using h
      · simpa [Broker.SetKey, hg, hn] using BrokerInv_IncrementLoad h store.name
      · simpa [Broker.SetKey, hg, hn] using h


theorem getKeyLoop_inv (net : Net) (key : String) :
    ∀ (pending : List (String × KVStore)) (b : Broker), BrokerInv b →
      BrokerInv (getKeyLoop net key b pending).2 := by
  intro pending
  induction pending with
  | nil =>
      intro b hb
      exact hb
  | cons p rest ih =>
      intro b hb
      obtain ⟨nm, st⟩ := p
      show BrokerInv (getKeyLoop net key b ((nm, st) :: rest)).2
      rw [getKeyLoop]
      cases net.getKV st.ipAddress key with
      | down => exact ih (b.evict st.name) (BrokerInv_evict hb st.name)
      | notOk => exact ih b hb
      | ok v =>
          cases v with
          | none => exact ih b hb
          | some w => exact hb


theorem BrokerInv_GetKey {b : Broker} (h : BrokerInv b) (net : Net) (key : String) :
    BrokerInv (b.GetKey net key).2 :=
  getKeyLoop_inv net key b.stores b h


theorem BrokerInv_of_reachable {b : Broker} (h : BrokerReachable b) : BrokerInv b := by
  induction h with
  | init => exact BrokerInv_init
  | createStore b name ip _ ih => exact BrokerInv_CreateStore ih name ip
  | removeStore b name _ ih => exact BrokerInv_RemoveStore ih name
  | getKey b net key _ ih => exact BrokerInv_GetKey ih net key
  | setKey b net key value _ ih => exact BrokerInv_SetKey ih net key value
  | deleteKey b net key _ ih =>
      rcases hd : deleteProbe net key b.stores none with _ | ip
      · simpa [Broker.DeleteKey, hd] using ih
      · rcases hn : net.delKV ip key with _ | _ | _ <;>
          simpa [Broker.DeleteKey, hd, hn] using ih


/-- C1: in every reachable broker state the key set of `stores`, the key
set of `loads`, and the name set of the peer ring coincide — so
`CreateStore`, `RemoveStore`, and the eviction inside `GetKey` all
preserve this equality. -/
theorem broker_store_bookkeeping (b : Broker) (h : BrokerReachable b) :
    ∀ n, (n ∈ keysA b.stores ↔ n ∈ keysA b.loads) ∧
      (n ∈ keysA b.stores ↔ n ∈ ringNames b.peerlist) := by
  have hinv := BrokerInv_of_reachable h
  exact fun n => ⟨hinv.store_load n, hinv.store_ring n⟩


/-- C1 (witness): the state reached by registering two stores and then
routing a `get` through an unreachable fleet (which evicts both). -/
theorem broker_store_bookkeeping_witness :
    ("alpha" ∈ keysA (((NewBroker.CreateStore "alpha" "10.0.0.1:7001").2.CreateStore
          "beta" "10.0.0.2:7002").2.GetKey netAllDown "foo").2.stores ↔
      "alpha" ∈ keysA (((NewBroker.CreateStore "alpha" "10.0.0.1:7001").2.CreateStore
          "beta" "10.0.0.2:7002").2.GetKey netAllDown "foo").2.loads) ∧
    ("alpha" ∈ keysA (((NewBroker.CreateStore "alpha" "10.0.0.1:7001").2.CreateStore
          "beta" "10.0.0.2:7002").2.GetKey netAllDown "foo").2.stores ↔
      "alpha" ∈ ringNames (((NewBroker.CreateStore "alpha" "10.0.0.1:7001").2.CreateStore
          "beta" "10.0.0.2:7002").2.GetKey netAllDown "foo").2.peerlist) :=
  broker_store_bookkeeping _
    (BrokerReachable.getKey _ netAllDown "foo"
      (BrokerReachable.createStore _ "beta" "10.0.0.2:7002"
        (BrokerReachable.createStore _ "alpha" "10.0.0.1:7001" BrokerReachable.init)))
    "alpha"


/-! ### C7: least-loaded selection -/

theorem leastLoop_stays (loads : List (String × Int)) :
    ∀ (l : List (String × KVStore)) (minLoad : Int) (best : Option KVStore),
      (∀ q ∈ l, ¬ loadOf loads q.1 < minLoad) → leastLoop loads l minLoad best = best := by
  intro l
  induction l with
  | nil => intro minLoad best _; rfl
  | cons p rest ih =>
      intro minLoad best hq
      obtain ⟨nm, st⟩ := p
      have hhd : ¬ loadOf loads nm < minLoad := hq (nm, st) (List.mem_cons_self _ _)
      show leastLoop loads ((nm, st) :: rest) minLoad best = best
      rw [leastLoop, if_neg hhd]
      exact ih minLoad best (fun q hqr => hq q (List.mem_cons_of_mem _ hqr))


theorem leastLoop_found (loads : List (String × Int)) :
    ∀ (l : List (String × KVStore)) (minLoad : Int) (best : Option KVStore),
      (∃ q ∈ l, loadOf loads q.1 < minLoad) →
      ∃ n st, leastLoop loads l minLoad best = some st ∧ (n, st) ∈ l ∧
        loadOf loads n < minLoad ∧ ∀ q ∈ l, loadOf loads n ≤ loadOf loads q.1 := by
  intro l
  induction l with
  | nil =>
      intro minLoad best h
      rcases h with ⟨q, hq, _⟩
      cases hq
  | cons p rest ih =>
      intro minLoad best h
      obtain ⟨nm, st⟩ := p
      by_cases hhd : loadOf loads nm < minLoad
      · by_cases hrest : ∃ q ∈ rest, loadOf loads q.1 < loadOf loads nm
        · obtain ⟨n, st', hres, hmem, hlt, hall⟩ := ih (loadOf loads nm) (some st) hrest
          refine ⟨n, st', ?_, List.mem_cons_of_mem _ hmem, lt_trans hlt hhd, ?_⟩
          · rw [leastLoop, if_pos hhd]
            exact hres
          · intro q hq
            rcases List.mem_cons.mp hq with rfl | hq
            · exact le_of_lt hlt
            · exact hall q hq
        · push_neg at hrest
          refine ⟨nm, st, ?_, List.mem_cons_self _ _, hhd, ?_⟩
          · rw [leastLoop, if_pos hhd]
            exact leastLoop_stays loads rest (loadOf loads nm) (some st)
              (fun q hq => not_lt.mpr (hrest q hq))
          · intro q hq
            rcases List.mem_cons.mp hq with rfl | hq
            · exact le_refl _
            · exact hrest q hq
      · rcases h with ⟨q0, hq0, hlt0⟩
        have hq0rest : q0 ∈ rest := by
          rcases List.mem_cons.mp hq0 with rfl | hh
          · exact absurd hlt0 hhd
          · exact hh
        obtain ⟨n, st', hres, hmem, hlt, hall⟩ := ih minLoad best ⟨q0, hq0rest, hlt0⟩
        refine ⟨n, st', ?_, List.mem_cons_of_mem _ hmem, hlt, ?_⟩
        · rw [leastLoop, if_neg hhd]
          exact hres
        · intro q hq
          rcases List.mem_cons.mp hq with rfl | hq
          · exact le_trans (le_of_lt hlt) (not_lt.mp hhd)
          · exact hall q hq


/-- C7 (counterexample): with one registered store whose load equals the
max-int sentinel, `GetLeastLoadedStore` returns a nil store with no
error — not a registered store — and `SetKey` then dereferences nil. -/
theorem getLeastLoaded_sentinel_returns_nil :
    ({ stores := [("a", { data := none, name := "a", ipAddress := "10.0.0.1:1", peerIP := "" })],
       loads := [("a", maxGoInt)],
       peerlist := LinkedList.empty.AddNode "a" "10.0.0.1:1" } : Broker).GetLeastLoadedStore =
      .ok none ∧
    (({ stores := [("a", { data := none, name := "a", ipAddress := "10.0.0.1:1", peerIP := "" })],
        loads := [("a", maxGoInt)],
        peerlist := LinkedList.empty.AddNode "a" "10.0.0.1:1" } : Broker).SetKey
      netAllDown "k" "v").result = .crash := by
  constructor
  · show (if (1 : Nat) = 0 then _ else _) = _
    rw [if_neg (by omega)]
    show Except.ok (if loadOf [("a", maxGoInt)] "a" < maxGoInt then _ else _) = _
    rw [if_neg (by simp [loadOf, lookupA])]
    rfl
  · rfl


/-- C7 (amended): whenever some registered store's load is below the
max-int sentinel, `GetLeastLoadedStore` returns (without error) a
registered store whose load is least among all registered stores, and
`SetKey` forwards its `POST /set` to exactly that store's address; an
empty store set always fails with "no stores available".  (If every
load equals the sentinel, the scan returns a nil store — see the
counterexample.) -/
theorem getLeastLoaded_min_and_routes (b : Broker) (net : Net) (key value : String)
    (hne : ∃ p ∈ b.stores, loadOf b.loads p.1 < maxGoInt) :
    (∃ n st, b.GetLeastLoadedStore = .ok (some st) ∧ (n, st) ∈ b.stores ∧
      (∀ q ∈ b.stores, loadOf b.loads n ≤ loadOf b.loads q.1) ∧
      (b.SetKey net key value).forwarded = some (st.ipAddress, key, value)) ∧
    (∀ b2 : Broker, b2.stores = [] → b2.GetLeastLoadedStore = .error "no stores available") := by
  constructor
  · obtain ⟨n, st, hres, hmem, _, hall⟩ := leastLoop_found b.loads b.stores maxGoInt none hne
    have hlen : ¬ b.stores.length = 0 := by
      intro hh
      rw [List.length_eq_zero] at hh
      rcases hne with ⟨p, hp, _⟩
      rw [hh] at hp
      cases hp
    have hg : b.GetLeastLoadedStore = .ok (some st) := by
      unfold Broker.GetLeastLoadedStore
      rw [if_neg hlen, hres]
    refine ⟨n, st, hg, hmem, hall, ?_⟩
    rcases hn : net.setKV st.ipAddress key value with _ | _ | _ <;>
      simp [Broker.SetKey, hg, hn]
  · intro b2 hb2
    unfold Broker.GetLeastLoadedStore
    rw [if_pos (by rw [hb2]; rfl)]


/-- C7 (witness). -/
theorem getLeastLoaded_min_and_routes_witness :
    (∃ n st, brokerTwo.GetLeastLoadedStore = .ok (some st) ∧ (n, st) ∈ brokerTwo.stores ∧
      (∀ q ∈ brokerTwo.stores,
        loadOf brokerTwo.loads n ≤ loadOf brokerTwo.loads q.1) ∧
      (brokerTwo.SetKey netAllDown "k" "v").forwarded = some (st.ipAddress, "k", "v")) ∧
    (∀ b2 : Broker, b2.stores = [] → b2.GetLeastLoadedStore = .error "no stores available") :=
  getLeastLoaded_min_and_routes brokerTwo netAllDown "k" "v"
    ⟨("a", { data := none, name := "a", ipAddress := "10.0.0.1:1", peerIP := "" }),
      List.mem_cons_self _ _, by decide⟩


/-! ### C4: load-counter lifecycle -/

theorem lookup_IncrementLoad_self (b : Broker) (nm : String) :
    lookupA (b.IncrementLoad nm).loads nm = (lookupA b.loads nm).map goInc := by
  unfold Broker.IncrementLoad
  cases hl : lookupA b.loads nm with
  | none => simp [hl]
  | some v =>
      show lookupA (insertA b.loads nm (goInc v)) nm = _
      rw [lookupA_insertA_self]
      rfl


theorem lookup_IncrementLoad_ne (b : Broker) (nm n : String) (h : n ≠ nm) :
    lookupA (b.IncrementLoad nm).loads n = lookupA b.loads n := by
  unfold Broker.IncrementLoad
  cases hl : lookupA b.loads nm with
  | none => rfl
  | some v =>
      show lookupA (insertA b.loads nm (goInc v)) n = _
      exact lookupA_insertA_ne b.loads nm n _ h


theorem getKeyLoop_loads (net : Net) (key : String) :
    ∀ (pending : List (String × KVStore)) (b : Broker) (n : String),
      lookupA (getKeyLoop net key b pending).2.loads n = lookupA b.loads n ∨
      lookupA (getKeyLoop net key b pending).2.loads n = none := by
  intro pending
  induction pending with
  | nil => intro b n; exact Or.inl rfl
  | cons p rest ih =>
      intro b n
      obtain ⟨nm, st⟩ := p
      rw [getKeyLoop]
      cases net.getKV st.ipAddress key with
      | down =>
          rcases ih (b.evict st.name) n with hh | hh
          · rw [hh]
            by_cases hn : n = st.name
            · refine Or.inr ?_
              rw [hn]
              show lookupA (eraseA b.loads st.name) st.name = none
              exact lookupA_eraseA_self b.loads st.name
            · refine Or.inl ?_
              show lookupA (eraseA b.loads st.name) n = lookupA b.loads n
              exact lookupA_eraseA_ne b.loads st.name n hn
          · exact Or.inr hh
      | notOk => exact ih b n
      | ok v =>
          cases v with
          | none => exact ih b n
          | some w => exact Or.inl rfl


theorem DeleteKey_state (b : Broker) (net : Net) (key : String) :
    (b.DeleteKey net key).2 = b := by
  rcases hd : deleteProbe net key b.stores none with _ | ip
  · simp [Broker.DeleteKey, hd]
  · rcases hn : net.delKV ip key with _ | _ | _ <;> simp [Broker.DeleteKey, hd, hn]


/-- C4 (counterexample): with one store at load 5, an accepted routed
`get` leaves the counter at 5 (the claim requires an increment), and a
successful `delete` also leaves it at 5 (the claim requires a reset
to 0): `GetKey` never calls `IncrementLoad` and `DeleteKey` never calls
`ResetLoad` in `src/broker/broker_server.go`. -/
theorem load_counter_not_touched_by_get_delete :
    (brokerTwo.GetKey
        { getKV := fun _ _ => .ok (some "v"), setKV := fun _ _ _ => .okStatus,
          delKV := fun _ _ => .okStatus } "k").1 = .ok "v" ∧
    lookupA (brokerTwo.GetKey
        { getKV := fun _ _ => .ok (some "v"), setKV := fun _ _ _ => .okStatus,
          delKV := fun _ _ => .okStatus } "k").2.loads "a" = some 5 ∧
    (brokerTwo.DeleteKey
        { getKV := fun _ _ => .ok (some "v"), setKV := fun _ _ _ => .okStatus,
          delKV := fun _ _ => .okStatus } "k").1 = .ok true ∧
    ¬ lookupA (brokerTwo.DeleteKey
        { getKV := fun _ _ => .ok (some "v"), setKV := fun _ _ _ => .okStatus,
          delKV := fun _ _ => .okStatus } "k").2.loads "a" = some 0 := by
  refine ⟨rfl, rfl, rfl, ?_⟩
  intro hh
  rw [DeleteKey_state] at hh
  have : (5 : Int) = 0 := by
    have h5 : lookupA brokerTwo.loads "a" = some 5 := rfl
    rw [h5] at hh
    injection hh
  omega


/-- C4 (amended): a store's load counter is initialized to 0 at
registration and incremented (64-bit) exactly on accepted routed `set`
operations forwarded to it; a routed `get` never changes a surviving
store's counter (an evicted store's counter is deleted), and a
successful `delete` leaves the whole broker state — counters included —
unchanged. -/
theorem load_counter_lifecycle (b : Broker) (net : Net) (name ip key value : String) :
    ((b.CreateStore name ip).1 = .ok () →
      lookupA (b.CreateStore name ip).2.loads name = some 0) ∧
    (∀ st, b.GetLeastLoadedStore = .ok (some st) →
      (b.SetKey net key value).result = .ok () →
      lookupA (b.SetKey net key value).broker.loads st.name =
        (lookupA b.loads st.name).map goInc ∧
      (∀ n, n ≠ st.name →
        lookupA (b.SetKey net key value).broker.loads n = lookupA b.loads n)) ∧
    (∀ n, lookupA (b.GetKey net key).2.loads n = lookupA b.loads n ∨
      lookupA (b.GetKey net key).2.loads n = none) ∧
    (b.DeleteKey net key).2 = b := by
  refine ⟨?_, ?_, ?_, DeleteKey_state b net key⟩
  · intro hok
    by_cases hdup : (lookupA b.stores name).isSome
    · rw [Broker.CreateStore] at hok
      rw [if_pos hdup] at hok
      cases hok
    · by_cases hip : ip = ""
      · rw [Broker.CreateStore] at hok
        rw [if_neg hdup, if_pos hip] at hok
        cases hok
      · have hC : (b.CreateStore name ip).2.loads = insertA b.loads name 0 := by
          simp [Broker.CreateStore, hdup, hip]
        rw [hC]
        exact lookupA_insertA_self b.loads name 0
  · intro st hg hok
    rcases hn : net.setKV st.ipAddress key value with _ | _ | _
    · exfalso
      rw [Broker.SetKey] at hok
      rw [hg] at hok
      simp [hn] at hok
    · have hB : (b.SetKey net key value).broker = b.IncrementLoad st.name := by
        simp [Broker.SetKey, hg, hn]
      rw [hB]
      exact ⟨lookup_IncrementLoad_self b st.name,
        fun n hne => lookup_IncrementLoad_ne b st.name n hne⟩
    · exfalso
      rw [Broker.SetKey] at hok
      rw [hg] at hok
      simp [hn] at hok
  · exact getKeyLoop_loads net key b.stores b


/-- C4 (witness). -/
theorem load_counter_lifecycle_witness :
    ((brokerTwo.CreateStore "c" "10.0.0.3:3").1 = .ok () →
      lookupA (brokerTwo.CreateStore "c" "10.0.0.3:3").2.loads "c" = some 0) ∧
    (∀ st, brokerTwo.GetLeastLoadedStore = .ok (some st) →
      (brokerTwo.SetKey netAllDown "k" "v").result = .ok () →
      lookupA (brokerTwo.SetKey netAllDown "k" "v").broker.loads st.name =
        (lookupA brokerTwo.loads st.name).map goInc ∧
      (∀ n, n ≠ st.name →
        lookupA (brokerTwo.SetKey netAllDown "k" "v").broker.loads n =
          lookupA brokerTwo.loads n)) ∧
    (∀ n, lookupA (brokerTwo.GetKey netAllDown "k").2.loads n =
        lookupA brokerTwo.loads n ∨
      lookupA (brokerTwo.GetKey netAllDown "k").2.loads n = none) ∧
    (brokerTwo.DeleteKey netAllDown "k").2 = brokerTwo :=
  load_counter_lifecycle brokerTwo netAllDown "c" "10.0.0.3:3" "k" "v"


/-! ### C8: ring-notify-all -/

theorem notifyGuard_eq_some (ns : List (Nat × StoreNode)) (p : Nat × StoreNode)
    (tgt pay : String) :
    ((lookupA ns p.2.next).bind (fun nx =>
        if p.2.ipAddress = "" ∨ nx.ipAddress = "" then none
        else if p.2.ipAddress = nx.ipAddress then none
        else some (p.2.ipAddress, nx.ipAddress))) = some (tgt, pay) ↔
      ∃ nx, lookupA ns p.2.next = some nx ∧ p.2.ipAddress ≠ "" ∧ nx.ipAddress ≠ "" ∧
        p.2.ipAddress ≠ nx.ipAddress ∧ tgt = p.2.ipAddress ∧ pay = nx.ipAddress := by
  cases hl : lookupA ns p.2.next with
  | none => simp
  | some nx =>
      show ((if p.2.ipAddress = "" ∨ nx.ipAddress = "" then none
          else if p.2.ipAddress = nx.ipAddress then none
          else some (p.2.ipAddress, nx.ipAddress)) = some (tgt, pay)) ↔ _
      by_cases h1 : p.2.ipAddress = "" ∨ nx.ipAddress = ""
      · rw [if_pos h1]
        constructor
        · intro hh
          cases hh
        · rintro ⟨nx', hnx', h2, h3, _, _, _⟩
          injection hnx' with he
          subst he
          rcases h1 with h1 | h1
          · exact (h2 h1).elim
          · exact (h3 h1).elim
      · rw [if_neg h1]
        push_neg at h1
        by_cases h2 : p.2.ipAddress = nx.ipAddress
        · rw [if_pos h2]
          constructor
          · intro hh
            cases hh
          · rintro ⟨nx', hnx', _, _, h3, _, _⟩
            injection hnx' with he
            subst he
            exact (h3 h2).elim
        · rw [if_neg h2]
          constructor
          · intro hh
            injection hh with hh
            injection hh with hh1 hh2
            exact ⟨nx, rfl, h1.1, h1.2, h2, hh1.symm, hh2.symm⟩
          · rintro ⟨nx', hnx', _, _, _, ht, hp⟩
            injection hnx' with he
            subst he
            rw [ht, hp]


/-- C8: the set of notification messages attempted by
`NotifyPeersOfEachOther` is exactly the set of pairs
(N.address, S.address) where N is a live ring node, S the node its
`Next` pointer designates, both addresses are non-empty and they
differ; in particular a single-node ring attempts no notification. -/
theorem notify_attempts_spec {ll : LinkedList} {ids : List Nat} (h : RingShape ll ids) :
    (∀ tgt pay, (tgt, pay) ∈ NotifyPeersOfEachOther ll ↔
      ∃ i x nx, lookupA ll.nodes i = some x ∧ lookupA ll.nodes x.next = some nx ∧
        x.ipAddress ≠ "" ∧ nx.ipAddress ≠ "" ∧ x.ipAddress ≠ nx.ipAddress ∧
        tgt = x.ipAddress ∧ pay = nx.ipAddress) ∧
    (ll.nodes.length = 1 → NotifyPeersOfEachOther ll = []) := by
  constructor
  · intro tgt pay
    cases ids with
    | nil =>
        have hhead : ll.head = none := h.head_eq
        have hkeys : keysA ll.nodes = [] := by
          rcases hk : keysA ll.nodes with _ | ⟨i, r⟩
          · rfl
          · exact absurd ((h.mem_iff i).mp (by rw [hk]; exact List.mem_cons_self _ _))
              (List.not_mem_nil i)
        have hnodes : ll.nodes = [] := by
          rcases hn : ll.nodes with _ | ⟨p, r⟩
          · rfl
          · rw [hn] at hkeys
            cases hkeys
        constructor
        · intro hh
          rw [NotifyPeersOfEachOther, hhead] at hh
          cases hh
        · rintro ⟨i, x, nx, hix, -⟩
          rw [hnodes] at hix
          cases hix
    | cons a t =>
        have hhead : ll.head = some a := by rw [h.head_eq]; rfl
        have hN : NotifyPeersOfEachOther ll =
            (walkRing ll.nodes a a ll.nodes.length).filterMap (fun p =>
              (lookupA ll.nodes p.2.next).bind (fun nx =>
                if p.2.ipAddress = "" ∨ nx.ipAddress = "" then none
                else if p.2.ipAddress = nx.ipAddress then none
                else some (p.2.ipAddress, nx.ipAddress))) := by
          rw [NotifyPeersOfEachOther, hhead]
        rw [hN, List.mem_filterMap]
        constructor
        · rintro ⟨p, hpw, hfp⟩
          obtain ⟨nx, hnx, h1, h2, h3, ht, hp⟩ :=
            (notifyGuard_eq_some ll.nodes p tgt pay).mp hfp
          have hpn : p ∈ ll.nodes := (mem_walk_iff h p).mp hpw
          exact ⟨p.1, p.2, nx, lookupA_eq_of_mem _ _ _ h.keys_nodup hpn, hnx, h1, h2, h3, ht, hp⟩
        · rintro ⟨i, x, nx, hix, hnx, h1, h2, h3, ht, hp⟩
          refine ⟨(i, x), (mem_walk_iff h (i, x)).mpr (mem_of_lookupA_eq_some _ i x hix), ?_⟩
          exact (notifyGuard_eq_some ll.nodes (i, x) tgt pay).mpr ⟨_, hnx, h1, h2, h3, ht, hp⟩
  · intro hlen
    cases ids with
    | nil =>
        have hhead : ll.head = none := h.head_eq
        rw [NotifyPeersOfEachOther, hhead]
    | cons a t =>
        have hhead : ll.head = some a := by rw [h.head_eq]; rfl
        have hinv := ringInv_of_shape h
        rw [NotifyPeersOfEachOther, hhead]
        rw [List.filterMap_eq_nil]
        intro p hpw
        have hpn : p ∈ ll.nodes := (mem_walk_iff h p).mp hpw
        obtain ⟨hself, _⟩ := hinv.2.2.2 p hpn hlen
        have hlp : lookupA ll.nodes p.2.next = some p.2 := by
          rw [hself]
          exact lookupA_eq_of_mem _ _ _ h.keys_nodup hpn
        rw [hlp]
        show (if p.2.ipAddress = "" ∨ p.2.ipAddress = "" then none
          else if p.2.ipAddress = p.2.ipAddress then none
          else some (p.2.ipAddress, p.2.ipAddress)) = none
        by_cases hip : p.2.ipAddress = ""
        · rw [if_pos (Or.inl hip)]
        · rw [if_neg (by simpa using hip), if_pos rfl]


/-- C8 (witness). -/
theorem notify_attempts_spec_witness :
    (∀ tgt pay, (tgt, pay) ∈ NotifyPeersOfEachOther ringTwo ↔
      ∃ i x nx, lookupA ringTwo.nodes i = some x ∧ lookupA ringTwo.nodes x.next = some nx ∧
        x.ipAddress ≠ "" ∧ nx.ipAddress ≠ "" ∧ x.ipAddress ≠ nx.ipAddress ∧
        tgt = x.ipAddress ∧ pay = nx.ipAddress) ∧
    (ringTwo.nodes.length = 1 → NotifyPeersOfEachOther ringTwo = []) :=
  notify_attempts_spec
    (RingShape_AddNode (RingShape_AddNode ringShape_empty "a" "10.0.0.1:1") "b" "10.0.0.2:2")

end DKVS
